import Mathlib

/-!
Shallow embedding of the round-based matching engine of the
Multiagent-Online-Dating-Simulator repository (src/agents.py, src/matchers.py,
src/compatibility.py), together with theorems settling the frozen claims.

Modelling conventions:
* Python floats are modelled as exact rationals for the engine state
  (happiness, ratings) and as real numbers for the closed-form happiness
  formula of Agent.calculate_happiness, which uses non-integer powers.
* Randomness (random.sample, random.shuffle) and the externally supplied
  Strategy objects are modelled as oracles: the sampled candidate lists and
  the per-candidate interest decisions are parameters of the round function,
  constrained by a validity predicate capturing exactly what random.sample
  guarantees (a duplicate-free subset of the available set, of the size the
  source computes).
* Python set iteration order is immaterial for every property proved here;
  where the source iterates a set, the embedding fixes a concrete order and
  the theorems do not depend on it.
* The TrueSkill rate_1vs1 function is an external library call; it enters the
  embedding as an abstract parameter of the ranked matcher operations.
-/

namespace DatingSim

/-- Engine-level view of an agent (src/agents.py, class Agent): the fields the
matching engine reads and writes.  The strategy object is externalised as a
decision oracle, and the happiness value of a concrete match is supplied by the
happiness oracle of the round functions (see calculateHappiness below for the
closed-form formula itself). -/
structure AgentState where
  id : Nat
  likeAllowance : Int
  remainingLikes : Int
  liked : Finset Nat
  passed : Finset Nat
  matched : Finset Nat
  matchCount : Nat
  happiness : ℚ
  history : List (Nat × Nat × ℚ)
deriving DecidableEq

instance : Inhabited AgentState :=
  ⟨{ id := 0, likeAllowance := 0, remainingLikes := 0, liked := ∅, passed := ∅,
     matched := ∅, matchCount := 0, happiness := 0, history := [] }⟩

/-- Agent.get_assessed_candidates: the union of the liked and passed id sets. -/
def getAssessedCandidates (a : AgentState) : Finset Nat :=
  a.liked ∪ a.passed

/-- Agent.assess_candidates, inner loop: candidates are consulted in list
order; the loop breaks as soon as remaining_likes < 1; a like decrements
remaining_likes by one.  Returns the liked ids, the passed ids (both in
candidate order) and the final remaining_likes. -/
def assessList (dec : Nat → Bool) : Int → List Nat → List Nat × List Nat × Int
  | rem, [] => ([], [], rem)
  | rem, c :: cs =>
    if rem < 1 then ([], [], rem)
    else if dec c then
      let r := assessList dec (rem - 1) cs
      (c :: r.1, r.2.1, r.2.2)
    else
      let r := assessList dec rem cs
      (r.1, c :: r.2.1, r.2.2)

/-- Agent.assess_candidates: runs the loop and merges the newly liked and
passed ids into the agent's sets.  Returns the updated agent together with the
per-round liked and passed lists (the dictionary the source returns). -/
def assessCandidates (dec : Nat → Bool) (a : AgentState) (cs : List Nat) :
    AgentState × List Nat × List Nat :=
  let r := assessList dec a.remainingLikes cs
  ({ a with remainingLikes := r.2.2,
            liked := a.liked ∪ r.1.toFinset,
            passed := a.passed ∪ r.2.1.toFinset },
   r.1, r.2.1)

/-- Agent.get_matched: increments match_count, records the partner id and
accumulates happiness with the 0.999 ^ match_count diminishing-returns factor.
The value of calculate_happiness for the pair is supplied by the oracle
happy (evaluating agent id, partner id). -/
def getMatched (happy : Nat → Nat → ℚ) (a : AgentState) (partnerId : Nat) :
    AgentState :=
  let mc := a.matchCount + 1
  { a with matchCount := mc,
           matched := insert partnerId a.matched,
           happiness := a.happiness + happy a.id partnerId * (999 / 1000 : ℚ) ^ mc }

/-- Agent.log_state for the variables match_count and happiness, as invoked by
the matchers' log_agents. -/
def logState (round : Nat) (a : AgentState) : AgentState :=
  { a with history := a.history ++ [(round, a.matchCount, a.happiness)] }

/-- State of RandomAgentMatcher (src/matchers.py).  The sparse dok_matrix is a
total function that is 0 outside the recorded interactions; waiting_matches is
kept as a duplicate-free list (a Python set); registerEvents and matchEvents
are ghost logs recording, respectively, every waiting_matches.add call and
every get_matched call (caller id, partner id), so that the claims about
events firing exactly once can be stated. -/
structure MatcherState where
  agents : List AgentState
  agentIds : Finset Nat
  round : Nat
  matrix : Nat → Nat → Int
  recommendationLimit : Nat
  waiting : List (Nat × Nat)
  eliminated : Finset Nat
  registerEvents : List (Nat × Nat)
  matchEvents : List (Nat × Nat)

/-- RandomAgentMatcher.__init__: the constructor stores the population and
builds an all-zero matrix.  Note that the source performs no validation of the
agent ids whatsoever (the id discipline is only stated in a comment). -/
def initRandomMatcher (agents : List AgentState) (limit : Nat) : MatcherState :=
  { agents := agents
    agentIds := (agents.map (·.id)).toFinset
    round := 0
    matrix := fun _ _ => 0
    recommendationLimit := limit
    waiting := []
    eliminated := ∅
    registerEvents := []
    matchEvents := [] }

/-- AgentMatcher.get_agent_by_id: a positional lookup, self.agents[id].
Python raises IndexError out of range; the engine only ever calls it with a
valid index, so the embedding uses the default agent there. -/
def getAgentById (agents : List AgentState) (id : Nat) : AgentState :=
  agents.getD id default

/-- AgentMatcher.get_agents_by_ids: filters the population list by membership
of the requested ids, hence the result is in population order, not in the
order of the supplied ids. -/
def getAgentsByIds (agents : List AgentState) (ids : List Nat) : List AgentState :=
  agents.filter (fun a => a.id ∈ ids)

/-- RandomAgentMatcher.get_available_candidates: the whole id population minus
the agent's assessed candidates, minus the agent itself and the eliminated
agents. -/
def getAvailableCandidates (st : MatcherState) (a : AgentState) : Finset Nat :=
  (st.agentIds \ getAssessedCandidates a) \ (insert a.id st.eliminated)

/-- The unordered pair tuple(sorted([a, b])) used as a waiting_matches key. -/
def sortPair (a b : Nat) : Nat × Nat :=
  if a ≤ b then (a, b) else (b, a)

/-- One iteration of the inner loop of RandomAgentMatcher.process_likes:
set matrix[agent, liked] = 1 and, if the reverse cell is already 1, register
the unordered pair as a pending match.  The ghost registerEvents log records
the add call. -/
def processLike (st : MatcherState) (agentId likedId : Nat) : MatcherState :=
  let m := fun x y => if x = agentId ∧ y = likedId then 1 else st.matrix x y
  if m likedId agentId = 1 then
    let p := sortPair agentId likedId
    { st with matrix := m,
              waiting := if p ∈ st.waiting then st.waiting else st.waiting ++ [p],
              registerEvents := st.registerEvents ++ [p] }
  else
    { st with matrix := m }

/-- RandomAgentMatcher.process_likes over the per-round dictionary, an
association list in agent-processing order. -/
def processLikes (st : MatcherState) (likes : List (Nat × List Nat)) : MatcherState :=
  likes.foldl (fun s e => e.2.foldl (fun s2 b => processLike s2 e.1 b) s) st

/-- One iteration of the inner loop of RandomAgentMatcher.process_passes:
set matrix[agent, passed] = -1. -/
def processPass (st : MatcherState) (agentId passedId : Nat) : MatcherState :=
  { st with matrix := fun x y => if x = agentId ∧ y = passedId then -1 else st.matrix x y }

/-- RandomAgentMatcher.process_passes over the per-round dictionary. -/
def processPasses (st : MatcherState) (passes : List (Nat × List Nat)) : MatcherState :=
  passes.foldl (fun s e => e.2.foldl (fun s2 b => processPass s2 e.1 b) s) st

/-- Body of the loop of RandomAgentMatcher.process_matches: both members of a
waiting pair are informed of the match via get_matched; the agents are fetched
positionally and written back, and the ghost matchEvents log records both
get_matched calls. -/
def processMatchPair (happy : Nat → Nat → ℚ) (st : MatcherState) (p : Nat × Nat) :
    MatcherState :=
  let a1 := getAgentById st.agents p.1
  let a2 := getAgentById st.agents p.2
  let a1' := getMatched happy a1 a2.id
  let a2' := getMatched happy a2 a1.id
  { st with agents := (st.agents.set p.1 a1').set p.2 a2',
            matchEvents := st.matchEvents ++ [(a1.id, a2.id), (a2.id, a1.id)] }

/-- RandomAgentMatcher.process_matches: processes every pending pair and then
clears waiting_matches. -/
def processMatches (happy : Nat → Nat → ℚ) (st : MatcherState) : MatcherState :=
  let st2 := st.waiting.foldl (processMatchPair happy) st
  { st2 with waiting := [] }

/-- RandomAgentMatcher.log_agents: snapshots match_count and happiness of
every agent (eliminated ones included) under the current round id. -/
def logAgents (st : MatcherState) : MatcherState :=
  { st with agents := st.agents.map (logState st.round) }

/-- Oracle for one round: the candidate ids chosen by random.sample for each
agent id, and the strategy decision (agent id, candidate id) for each
assessment.  Strategies are arbitrary external policies, so the decision is
unconstrained; the sample is constrained by ValidOracle below. -/
structure RoundOracle where
  sample : Nat → List Nat
  dec : Nat → Nat → Bool

/-- What random.sample guarantees in run_new_round: the recommended ids form a
duplicate-free subset of the agent's available candidates, of size
min(recommendation_limit, number available).  Only agents actually processed
in the round (present and not eliminated) are constrained. -/
def ValidOracle (st : MatcherState) (o : RoundOracle) : Prop :=
  ∀ a ∈ st.agents, a.id ∉ st.eliminated →
    (o.sample a.id).Nodup ∧
    (∀ c ∈ o.sample a.id, c ∈ getAvailableCandidates st a) ∧
    (o.sample a.id).length =
      min st.recommendationLimit (getAvailableCandidates st a).card

instance (st : MatcherState) (o : RoundOracle) : Decidable (ValidOracle st o) := by
  unfold ValidOracle; infer_instance

/-- Collection phase of run_new_round over a list of agent positions: skips
eliminated agents; otherwise replenishes the allowance, assesses the
recommended candidates (their public details are produced by get_agents_by_ids
on the current population, hence in population order), stores the updated
agent and collects the per-round entries (agent id, liked ids, passed ids) in
loop order — the source builds the round_likes and round_passes dictionaries
from exactly these entries in the same loop. -/
def collectGo (o : RoundOracle) (st : MatcherState) :
    List Nat → MatcherState × List (Nat × List Nat × List Nat)
  | [] => (st, [])
  | i :: is =>
    let a := st.agents.getD i default
    if a.id ∈ st.eliminated then collectGo o st is
    else
      let a2 := { a with remainingLikes := a.likeAllowance }
      let details := (getAgentsByIds st.agents (o.sample a2.id)).map (·.id)
      let r := assessCandidates (o.dec a2.id) a2 details
      let rest := collectGo o { st with agents := st.agents.set i r.1 } is
      (rest.1, (a2.id, r.2.1, r.2.2) :: rest.2)

/-- RandomAgentMatcher.run_new_round: increments the round counter, collects
every agent's assessments, then processes likes, passes and matches in that
order and logs all agents. -/
def runNewRound (happy : Nat → Nat → ℚ) (o : RoundOracle) (st : MatcherState) :
    MatcherState :=
  let st1 := { st with round := st.round + 1 }
  let c := collectGo o st1 (List.range st1.agents.length)
  let st2 := processLikes c.1 (c.2.map (fun e => (e.1, e.2.1)))
  let st3 := processPasses st2 (c.2.map (fun e => (e.1, e.2.2)))
  let st4 := processMatches happy st3
  logAgents st4

/-- np.percentile with the default linear interpolation on rational data.
Returns none exactly when numpy raises: on an empty sample or a percentile
outside [0, 100]. -/
def percentile (xs : List ℚ) (p : ℚ) : Option ℚ :=
  if xs = [] ∨ p < 0 ∨ 100 < p then none
  else
    let s := xs.insertionSort (· ≤ ·)
    let n := s.length
    let h := ((n : ℚ) - 1) * p / 100
    let i := (⌊h⌋).toNat
    let g := h - (i : ℚ)
    some (s.getD i 0 + g * (s.getD (min (i + 1) (n - 1)) 0 - s.getD i 0))

/-- RandomAgentMatcher.eliminate_bottom: computes the percentile threshold of
the happiness of the non-eliminated agents (none models the numpy exception on
an empty population) and then adds every agent whose happiness is at or below
the threshold to the elimination set. -/
def eliminateBottom (st : MatcherState) (threshold : ℚ) : Option MatcherState :=
  match percentile
      (((st.agents.filter (fun a => a.id ∉ st.eliminated)).map (·.happiness)))
      threshold with
  | none => none
  | some t =>
    let elim2 := st.agents.foldl
      (fun e a => if a.happiness ≤ t then insert a.id e else e) st.eliminated
    some { st with eliminated := elim2 }

/-- TrueSkill rating: a mean and an uncertainty.  The update mathematics lives
in the external trueskill library and is abstracted as a parameter below. -/
structure Rating where
  mu : ℚ
  sigma : ℚ
deriving DecidableEq

/-- Rating() with the trueskill defaults (mu 25, sigma 25/3). -/
def defaultRating : Rating :=
  { mu := 25, sigma := 25 / 3 }

instance : Inhabited Rating := ⟨defaultRating⟩

/-- Signature of trueskill.rate_1vs1: (winner, loser, drawn) to the updated
(winner, loser) ratings. -/
def RateFun : Type :=
  Rating → Rating → Bool → Rating × Rating

/-- State of RankedAgentMatcher (src/matchers.py): the RandomAgentMatcher
state extended with one rating per agent, the configuration flags and the
rating logs. -/
structure RankedState where
  agents : List AgentState
  agentIds : Finset Nat
  round : Nat
  matrix : Nat → Nat → Int
  ratings : List Rating
  recommendationLimit : Nat
  waiting : List (Nat × Nat)
  eliminated : Finset Nat
  strictRecommendations : Bool
  likesAsDraws : Bool
  rankPasses : Bool
  rankPassFromLower : Bool
  rankPassFromHigher : Bool
  registerEvents : List (Nat × Nat)
  matchEvents : List (Nat × Nat)
  ratingLogs : List (Nat × Nat × Rating)

/-- RankedAgentMatcher.__init__: again no validation of the agent ids; every
agent starts from the identical default rating. -/
def initRankedMatcher (agents : List AgentState) (limit : Nat)
    (strict draws passes lower higher : Bool) : RankedState :=
  { agents := agents
    agentIds := (agents.map (·.id)).toFinset
    round := 0
    matrix := fun _ _ => 0
    ratings := List.replicate (agents.map (·.id)).toFinset.card defaultRating
    recommendationLimit := limit
    waiting := []
    eliminated := ∅
    strictRecommendations := strict
    likesAsDraws := draws
    rankPasses := passes
    rankPassFromLower := lower
    rankPassFromHigher := higher
    registerEvents := []
    matchEvents := []
    ratingLogs := [] }

/-- Previously unseen, non-eliminated candidate ids for the ranked matcher
(the all_available set of RankedAgentMatcher.get_available_candidates). -/
def rankedAvailable (st : RankedState) (a : AgentState) : Finset Nat :=
  (st.agentIds \ getAssessedCandidates a) \ (insert a.id st.eliminated)

/-- Distance key of RankedAgentMatcher.get_available_candidates: the absolute
difference between a candidate's rating mean and the agent's rating mean. -/
def ratingDistance (st : RankedState) (a : AgentState) (i : Nat) : ℚ :=
  |(st.ratings.getD i defaultRating).mu - (st.ratings.getD a.id defaultRating).mu|

/-- The sorted_ratings keys of RankedAgentMatcher.get_available_candidates:
the available indices of the ratings list, sorted by distance in descending
order (reverse=True).  Ties: Python's sort is stable; this embedding uses
insertion sort, whose tie order differs, which is immaterial for every
property stated about this function. -/
def rankedSorted (st : RankedState) (a : AgentState) : List Nat :=
  ((List.range st.ratings.length).filter (· ∈ rankedAvailable st a)).insertionSort
    (fun i j => ratingDistance st a j ≤ ratingDistance st a i)

/-- RankedAgentMatcher.get_available_candidates with strict_recommendations:
the prefix of length min(len(sorted_ratings), recommendation_limit) of the
descending-distance ordering. -/
def rankedGetAvailableStrict (st : RankedState) (a : AgentState) : List Nat :=
  let s := rankedSorted st a
  s.take (min s.length st.recommendationLimit)

/-- One iteration of the inner loop of RankedAgentMatcher.process_likes:
marks the matrix cell, updates both ratings via rate_1vs1 with the liked agent
as the winner (or a draw when likes_as_draws), then registers the pair when
the like is mutual. -/
def rankedProcessLike (rate : RateFun) (st : RankedState) (agentId likedId : Nat) :
    RankedState :=
  let m := fun x y => if x = agentId ∧ y = likedId then 1 else st.matrix x y
  let r := rate (st.ratings.getD likedId defaultRating)
    (st.ratings.getD agentId defaultRating) st.likesAsDraws
  let ratings2 := (st.ratings.set likedId r.1).set agentId r.2
  if m likedId agentId = 1 then
    let p := sortPair agentId likedId
    { st with matrix := m, ratings := ratings2,
              waiting := if p ∈ st.waiting then st.waiting else st.waiting ++ [p],
              registerEvents := st.registerEvents ++ [p] }
  else
    { st with matrix := m, ratings := ratings2 }

/-- RankedAgentMatcher.process_likes: the source shuffles the liker agents and
each liker's targets before applying the updates; the shuffled association
list is supplied by the round oracle. -/
def rankedProcessLikes (rate : RateFun) (st : RankedState)
    (likes : List (Nat × List Nat)) : RankedState :=
  likes.foldl (fun s e => e.2.foldl (fun s2 b => rankedProcessLike rate s2 e.1 b) s) st

/-- Comparison of trueskill Rating objects (used by the pass gates), which
orders by the rating mean. -/
def ratingLt (r1 r2 : Rating) : Prop :=
  r1.mu < r2.mu

instance (r1 r2 : Rating) : Decidable (ratingLt r1 r2) := by
  unfold ratingLt; infer_instance

/-- One iteration of the inner loop of RankedAgentMatcher.process_passes:
marks the matrix cell and, when rank_passes and neither configuration gate
fires, updates both ratings with the passing agent as the winner. -/
def rankedProcessPass (rate : RateFun) (st : RankedState) (agentId passedId : Nat) :
    RankedState :=
  let st2 := { st with matrix :=
    fun x y => if x = agentId ∧ y = passedId then -1 else st.matrix x y }
  if st2.rankPasses then
    if ¬st2.rankPassFromLower ∧
        ratingLt (st2.ratings.getD agentId defaultRating)
          (st2.ratings.getD passedId defaultRating) then st2
    else if ¬st2.rankPassFromHigher ∧
        ratingLt (st2.ratings.getD passedId defaultRating)
          (st2.ratings.getD agentId defaultRating) then st2
    else
      let r := rate (st2.ratings.getD agentId defaultRating)
        (st2.ratings.getD passedId defaultRating) false
      { st2 with ratings := (st2.ratings.set agentId r.1).set passedId r.2 }
  else st2

/-- RankedAgentMatcher.process_passes, over the shuffled association list. -/
def rankedProcessPasses (rate : RateFun) (st : RankedState)
    (passes : List (Nat × List Nat)) : RankedState :=
  passes.foldl (fun s e => e.2.foldl (fun s2 b => rankedProcessPass rate s2 e.1 b) s) st

/-- RankedAgentMatcher.process_matches, identical to the random matcher's. -/
def rankedProcessMatchPair (happy : Nat → Nat → ℚ) (st : RankedState)
    (p : Nat × Nat) : RankedState :=
  let a1 := getAgentById st.agents p.1
  let a2 := getAgentById st.agents p.2
  let a1' := getMatched happy a1 a2.id
  let a2' := getMatched happy a2 a1.id
  { st with agents := (st.agents.set p.1 a1').set p.2 a2',
            matchEvents := st.matchEvents ++ [(a1.id, a2.id), (a2.id, a1.id)] }

/-- RankedAgentMatcher.process_matches. -/
def rankedProcessMatches (happy : Nat → Nat → ℚ) (st : RankedState) : RankedState :=
  let st2 := st.waiting.foldl (rankedProcessMatchPair happy) st
  { st2 with waiting := [] }

/-- RankedAgentMatcher.log_agents: the agent snapshots plus the rating log. -/
def rankedLogAgents (st : RankedState) : RankedState :=
  { st with agents := st.agents.map (logState st.round),
            ratingLogs := st.ratingLogs ++
              st.agents.map (fun a => (a.id, st.round, st.ratings.getD a.id defaultRating)) }

/-- Collection phase of RankedAgentMatcher.run_new_round; identical loop body
to the random matcher, with the recommended ids coming from the oracle (in the
ranked matcher random.sample draws from the already ranked-and-truncated
get_available_candidates list). -/
def rankedCollectGo (o : RoundOracle) (st : RankedState) :
    List Nat → RankedState × List (Nat × List Nat × List Nat)
  | [] => (st, [])
  | i :: is =>
    let a := st.agents.getD i default
    if a.id ∈ st.eliminated then rankedCollectGo o st is
    else
      let a2 := { a with remainingLikes := a.likeAllowance }
      let details := (getAgentsByIds st.agents (o.sample a2.id)).map (·.id)
      let r := assessCandidates (o.dec a2.id) a2 details
      let rest := rankedCollectGo o { st with agents := st.agents.set i r.1 } is
      (rest.1, (a2.id, r.2.1, r.2.2) :: rest.2)

/-- RankedAgentMatcher.run_new_round.  The shuffles of process_likes and
process_passes are supplied by the permutation oracles shuffleLikes and
shuffleBoth; for the claims proved here their values are irrelevant. -/
def rankedRunNewRound (rate : RateFun) (happy : Nat → Nat → ℚ) (o : RoundOracle)
    (shuffleL shuffleP : List (Nat × List Nat) → List (Nat × List Nat))
    (st : RankedState) : RankedState :=
  let st1 := { st with round := st.round + 1 }
  let c := rankedCollectGo o st1 (List.range st1.agents.length)
  let st2 := rankedProcessLikes rate c.1 (shuffleL (c.2.map (fun e => (e.1, e.2.1))))
  let st3 := rankedProcessPasses rate st2 (shuffleP (c.2.map (fun e => (e.1, e.2.2))))
  let st4 := rankedProcessMatches happy st3
  rankedLogAgents st4

/-- RankedAgentMatcher.eliminate_bottom: percentile culling by rating mean
when using_ratings, else by happiness exactly as the random matcher.  The
source iterates the id set; the embedding fixes the ascending order, which is
immaterial since only membership matters and percentile sorts its input. -/
def rankedEliminateBottom (st : RankedState) (threshold : ℚ)
    (usingRatings : Bool) : Option RankedState :=
  if usingRatings then
    match percentile
        (((st.agentIds.filter (fun i => i ∉ st.eliminated)).sort (· ≤ ·)).map
          (fun i => (st.ratings.getD i defaultRating).mu)) threshold with
    | none => none
    | some t =>
      let elim2 := st.eliminated ∪
        st.agentIds.filter (fun i => (st.ratings.getD i defaultRating).mu ≤ t)
      some { st with eliminated := elim2 }
  else
    match percentile
        (((st.agents.filter (fun a => a.id ∉ st.eliminated)).map (·.happiness)))
        threshold with
    | none => none
    | some t =>
      let elim2 := st.agents.foldl
        (fun e a => if a.happiness ≤ t then insert a.id e else e) st.eliminated
      some { st with eliminated := elim2 }

/-- CompatibilityCalculator (src/compatibility.py): per-attribute weights and
match/mismatch rewards, over real numbers (Python floats). -/
structure CompatibilityCalculator where
  attributeWeights : List ℝ
  attributeMatchRewards : List (Bool → ℝ)

/-- CompatibilityCalculator.get_compatibility: sums, over the positions of
type_1, reward[i](type_1[i] == type_2[i]) * weight[i].  The callers inside the
repository always pass singleton lists (each whole attribute list wrapped in a
one-element list), so only position 0 is ever read; out-of-range indices,
which would raise IndexError in Python, are modelled with default values. -/
def getCompatibility (cc : CompatibilityCalculator)
    (type1 type2 : List (List String)) : ℝ :=
  (List.range type1.length).foldl
    (fun acc i =>
      acc + (cc.attributeMatchRewards.getD i (fun _ => 0))
              (decide (type1.getD i [] = type2.getD i [])) *
            cc.attributeWeights.getD i 0)
    0

/-- Trait-level view of an agent (class Agent), carrying the fields read by
Agent.calculate_happiness. -/
structure AgentProfile where
  gender : String
  attractiveness : ℝ
  estimatedAttractiveness : ℝ
  isImpostor : Bool
  observableAttributes : List String
  hiddenAttributes : List String
  compatibilityCalculator : CompatibilityCalculator

open scoped Classical in
/-- Happiness value of the non-impostor branch of Agent.calculate_happiness:
(matched attractiveness * compatibility + 2) ^ 0.9 - 1, divided by the
discomfort divisor for a female agent matched with someone more attractive
than her own estimated attractiveness. -/
noncomputable def normalHappiness (self matched : AgentProfile) : ℝ :=
  let compatibility := getCompatibility self.compatibilityCalculator
    [self.observableAttributes ++ self.hiddenAttributes]
    [matched.observableAttributes ++ matched.hiddenAttributes]
  let happiness := (matched.attractiveness * compatibility + 2) ^ (0.9 : ℝ) - 1
  if self.gender = "Female" ∧ 0 < matched.attractiveness - self.estimatedAttractiveness then
    happiness /
      (((5 - self.estimatedAttractiveness) / (5 * self.estimatedAttractiveness)) +
        (matched.attractiveness - self.estimatedAttractiveness) ^ ((1 : ℝ) / 100))
  else happiness

/-- Agent.calculate_happiness: the source guard is
self.is_impostor or (not self.is_impostor and not matched_agent.is_impostor);
when it fails the happiness is 0. -/
noncomputable def calculateHappiness (self matched : AgentProfile) : ℝ :=
  if self.isImpostor || (!self.isImpostor && !matched.isImpostor) then
    normalHappiness self matched
  else 0

/-- Calculator with a single attribute of weight 1 whose match and mismatch
rewards are both 1, so the compatibility multiplier is exactly 1. -/
def unitCalculator : CompatibilityCalculator where
  attributeWeights := [1]
  attributeMatchRewards := [fun _ => 1]

/-- A deterministic impostor male agent of attractiveness 3. -/
noncomputable def impostorMale : AgentProfile where
  gender := "Male"
  attractiveness := 3
  estimatedAttractiveness := 3
  isImpostor := true
  observableAttributes := ["a"]
  hiddenAttributes := []
  compatibilityCalculator := unitCalculator

/-- The same agent as impostorMale, minus the impostor flag. -/
noncomputable def genuineMale : AgentProfile :=
  { impostorMale with isImpostor := false }

theorem getCompatibility_unit (l1 l2 : List String) :
    getCompatibility unitCalculator [l1] [l2] = 1 := by
  simp [getCompatibility, unitCalculator, List.range_succ]

theorem normalHappiness_impostorMale_genuineMale :
    normalHappiness impostorMale genuineMale = (5 : ℝ) ^ (0.9 : ℝ) - 1 := by
  rw [normalHappiness]
  simp only [impostorMale, genuineMale]
  rw [getCompatibility_unit, if_neg (by norm_num)]
  norm_num

/-- C1, counterexample.  The claim asserts that an impostor agent evaluating a
non-impostor matched agent obtains happiness exactly 0; on the code the guard
self.is_impostor or (...) sends an impostor evaluator into the normal-formula
branch, which yields 5 ^ 0.9 - 1 > 0 for these concrete agents. -/
theorem c1_impostor_evaluator_nonzero :
    calculateHappiness impostorMale genuineMale ≠ 0 := by
  have h1 : calculateHappiness impostorMale genuineMale = (5 : ℝ) ^ (0.9 : ℝ) - 1 := by
    rw [calculateHappiness, if_pos (by simp [impostorMale])]
    exact normalHappiness_impostorMale_genuineMale
  have h2 : (1 : ℝ) < (5 : ℝ) ^ (0.9 : ℝ) :=
    Real.one_lt_rpow (by norm_num) (by norm_num)
  rw [h1]
  intro h
  nlinarith

/-- C1, amended.  Agent.calculate_happiness returns 0 exactly when the
evaluating agent is not an impostor and the matched agent is; in every other
impostor configuration (the evaluator is an impostor, or neither agent is) the
normal happiness formula applies.  In particular an impostor evaluating a
non-impostor receives the normal formula value, not 0. -/
theorem c1_happiness_impostor_rule (self matched : AgentProfile) :
    calculateHappiness self matched =
      if !self.isImpostor && matched.isImpostor then 0
      else normalHappiness self matched := by
  rw [calculateHappiness]
  cases hs : self.isImpostor <;> cases hm : matched.isImpostor <;> simp

/-- Fresh agent with a given id, allowance and happiness, as produced by the
Agent constructor before any round. -/
def mkAgent (i : Nat) (allow : Int) (h : ℚ) : AgentState :=
  { id := i, likeAllowance := allow, remainingLikes := allow, liked := ∅,
    passed := ∅, matched := ∅, matchCount := 0, happiness := h, history := [] }

/-- Six-agent population with happiness values [0, 0, 1, 1, 2, 2] and nobody
eliminated, the configuration of the percentile-inclusivity scenario. -/
def stC9 : MatcherState :=
  initRandomMatcher
    [mkAgent 0 10 0, mkAgent 1 10 0, mkAgent 2 10 1,
     mkAgent 3 10 1, mkAgent 4 10 2, mkAgent 5 10 2] 3

/-- C9: eliminate_bottom(50) on non-eliminated happiness [0,0,1,1,2,2]
computes the linearly interpolated 50th-percentile threshold 1 and eliminates
exactly the agents with happiness at or below 1, that is the four agents with
ids 0, 1, 2 and 3 (both ties at the threshold included). -/
theorem c9_percentile_inclusive :
    percentile ((stC9.agents.filter
        (fun a => a.id ∉ stC9.eliminated)).map (·.happiness)) 50 = some 1 ∧
    (eliminateBottom stC9 50).map (fun s => s.eliminated) =
      some ({0, 1, 2, 3} : Finset Nat) := by
  have hlist : (stC9.agents.filter
      (fun a => a.id ∉ stC9.eliminated)).map (·.happiness) = [0, 0, 1, 1, 2, 2] := rfl
  have hf : (⌊((6 : ℚ) - 1) * 50 / 100⌋ : ℤ) = 2 := by
    rw [Int.floor_eq_iff]
    norm_num
  have hperc : percentile [0, 0, 1, 1, 2, 2] 50 = some 1 := by
    rw [percentile]
    norm_num [List.insertionSort, List.orderedInsert, hf,
      show (2 : ℤ).toNat = 2 from rfl]
    exact fun h => absurd h (by simp)
  refine ⟨by rw [hlist]; exact hperc, ?_⟩
  rw [eliminateBottom, hlist, hperc]
  norm_num [stC9, initRandomMatcher, mkAgent]
  decide

/-- Population whose ids are 1 and 2 instead of 0 and 1. -/
def badIdAgents : List AgentState :=
  [mkAgent 1 10 0, mkAgent 2 10 0]

/-- C10, counterexample.  Constructing RandomAgentMatcher on agents with the
non-zero-based ids [1, 2] does not fail in any way: the constructor returns an
ordinary state holding both ids, and the damage the claim says should be
prevented is already visible, since the positional lookup get_agent_by_id(1)
returns the agent whose id is 2. -/
theorem c10_construction_never_fails :
    (initRandomMatcher badIdAgents 5).agentIds = ({1, 2} : Finset Nat) ∧
    (initRandomMatcher badIdAgents 5).round = 0 ∧
    (initRandomMatcher badIdAgents 5).eliminated = ∅ ∧
    (getAgentById (initRandomMatcher badIdAgents 5).agents 1).id = 2 ∧
    (initRankedMatcher badIdAgents 5 true false true true true).agentIds =
      ({1, 2} : Finset Nat) ∧
    (getAgentById (initRankedMatcher badIdAgents 5 true false true true true).agents 1).id
      = 2 := by
  refine ⟨by decide, rfl, rfl, by decide, by decide, by decide⟩

/-- C10, amended.  Neither constructor validates the agent ids: construction
always completes normally, storing the population and its id set verbatim, and
agent lookup stays positional, so whenever the agent stored at position i does
not carry id i the constructed matcher resolves id i to an agent with a
different id instead of failing. -/
theorem c10_no_id_validation (agents : List AgentState) (limit : Nat)
    (strict draws passes lower higher : Bool) (i : Nat)
    (h : i < agents.length) (hne : (agents.get ⟨i, h⟩).id ≠ i) :
    (initRandomMatcher agents limit).agents = agents ∧
    (initRandomMatcher agents limit).agentIds = (agents.map (·.id)).toFinset ∧
    (initRankedMatcher agents limit strict draws passes lower higher).agents = agents ∧
    (getAgentById (initRandomMatcher agents limit).agents i).id ≠ i := by
  refine ⟨rfl, rfl, rfl, ?_⟩
  show (agents.getD i default).id ≠ i
  rw [List.getD_eq_getElem agents default h]
  simpa using hne

/-- C10, witness for the amended theorem at the two-agent population with ids
[1, 2] and position 1. -/
theorem c10_no_id_validation_witness :
    (1 < badIdAgents.length ∧ (badIdAgents.get ⟨1, by decide⟩).id ≠ 1) ∧
    ((initRandomMatcher badIdAgents 5).agents = badIdAgents ∧
     (initRandomMatcher badIdAgents 5).agentIds = (badIdAgents.map (·.id)).toFinset ∧
     (initRankedMatcher badIdAgents 5 true false true true true).agents = badIdAgents ∧
     (getAgentById (initRandomMatcher badIdAgents 5).agents 1).id ≠ 1) :=
  ⟨⟨by decide, by decide⟩,
   c10_no_id_validation badIdAgents 5 true false true true true 1 (by decide) (by decide)⟩

/-- C8: get_agents_by_ids filters the population list, so its output is in
population order — a sublist of the agents list, identical for any two id
collections with the same members (the order of the supplied ids is
irrelevant) — and when the population is stored in ascending id order (ids
equal to positions, the documented discipline used by run_new_round) the
candidate details derived from it are in strictly ascending id order. -/
theorem c8_candidates_in_population_order (agents : List AgentState)
    (ids1 ids2 : List Nat) (hids : ids1.toFinset = ids2.toFinset)
    (hasc : agents.map (·.id) = List.range agents.length) :
    getAgentsByIds agents ids1 = getAgentsByIds agents ids2 ∧
    (getAgentsByIds agents ids1).Sublist agents ∧
    ((getAgentsByIds agents ids1).map (·.id)).Sorted (· < ·) := by
  refine ⟨?_, List.filter_sublist agents, ?_⟩
  · refine List.filter_congr (fun a _ => ?_)
    have h1 : a.id ∈ ids1 ↔ a.id ∈ ids2 := by
      rw [← List.mem_toFinset, ← List.mem_toFinset (l := ids2), hids]
    exact decide_eq_decide.mpr h1
  · have hsub : ((getAgentsByIds agents ids1).map (·.id)).Sublist
        (agents.map (·.id)) :=
      List.Sublist.map (·.id) (List.filter_sublist agents)
    rw [hasc] at hsub
    exact List.Pairwise.sublist hsub (List.sorted_lt_range agents.length)

/-- C8, witness: a three-agent population in ascending id order with the
requested ids supplied in two different orders. -/
theorem c8_candidates_in_population_order_witness :
    (([2, 0] : List Nat).toFinset = ([0, 2] : List Nat).toFinset ∧
     [mkAgent 0 10 0, mkAgent 1 10 0, mkAgent 2 10 0].map (·.id) =
       List.range 3 ∧
     getAgentsByIds [mkAgent 0 10 0, mkAgent 1 10 0, mkAgent 2 10 0] [2, 0] =
       [mkAgent 0 10 0, mkAgent 2 10 0]) ∧
    (getAgentsByIds [mkAgent 0 10 0, mkAgent 1 10 0, mkAgent 2 10 0] [2, 0] =
       getAgentsByIds [mkAgent 0 10 0, mkAgent 1 10 0, mkAgent 2 10 0] [0, 2] ∧
     (getAgentsByIds [mkAgent 0 10 0, mkAgent 1 10 0, mkAgent 2 10 0] [2, 0]).Sublist
       [mkAgent 0 10 0, mkAgent 1 10 0, mkAgent 2 10 0] ∧
     ((getAgentsByIds [mkAgent 0 10 0, mkAgent 1 10 0, mkAgent 2 10 0] [2, 0]).map
       (·.id)).Sorted (· < ·)) :=
  ⟨⟨by decide, by decide, by decide⟩,
   c8_candidates_in_population_order
     [mkAgent 0 10 0, mkAgent 1 10 0, mkAgent 2 10 0] [2, 0] [0, 2]
     (by decide) (by decide)⟩

theorem assessList_remaining (dec : Nat → Bool) :
    ∀ (cs : List Nat) (rem : Int),
      (assessList dec rem cs).2.2 =
        rem - ((assessList dec rem cs).1.length : Int) ∧
      (0 ≤ rem → 0 ≤ (assessList dec rem cs).2.2)
  | [], rem => by simp [assessList]
  | c :: cs, rem => by
    rw [assessList]
    by_cases h1 : rem < 1
    · simp [h1]
    · have hrem : (0 : Int) ≤ rem - 1 := by omega
      by_cases h2 : dec c
      · have ih := assessList_remaining dec cs (rem - 1)
        simp only [if_neg h1, if_pos h2]
        refine ⟨?_, fun _ => ih.2 hrem⟩
        rw [ih.1]
        simp only [List.length_cons]
        push_cast
        ring
      · have ih := assessList_remaining dec cs rem
        simp only [if_neg h1, if_neg h2]
        exact ⟨by rw [ih.1], fun h => ih.2 h⟩

/-- C5: when a round replenishes remaining_likes to like_allowance and then
assesses a candidate list, the resulting remaining_likes lies in
[0, like_allowance], and the number of ids added to the liked set in the round
is at most like_allowance. -/
theorem c5_allowance_bound (dec : Nat → Bool) (a : AgentState) (cs : List Nat)
    (hallow : 0 ≤ a.likeAllowance) (hreset : a.remainingLikes = a.likeAllowance) :
    0 ≤ (assessCandidates dec a cs).1.remainingLikes ∧
    (assessCandidates dec a cs).1.remainingLikes ≤
      (assessCandidates dec a cs).1.likeAllowance ∧
    (((assessCandidates dec a cs).2.1.length : Int) ≤ a.likeAllowance ∧
     ((((assessCandidates dec a cs).1.liked \ a.liked).card : Int) ≤
       a.likeAllowance)) := by
  have hs := assessList_remaining dec cs a.remainingLikes
  have h0 : 0 ≤ (assessList dec a.remainingLikes cs).2.2 := by
    exact hs.2 (by rw [hreset]; exact hallow)
  have hlen : ((assessList dec a.remainingLikes cs).1.length : Int) ≤
      a.likeAllowance := by
    have := hs.1
    omega
  refine ⟨h0, ?_, ?_, ?_⟩
  · show (assessList dec a.remainingLikes cs).2.2 ≤ a.likeAllowance
    have := hs.1
    have hlenpos : (0 : Int) ≤ ((assessList dec a.remainingLikes cs).1.length : Int) := by
      positivity
    omega
  · exact hlen
  · show (((a.liked ∪ (assessList dec a.remainingLikes cs).1.toFinset) \ a.liked).card
      : Int) ≤ a.likeAllowance
    have hsub : (a.liked ∪ (assessList dec a.remainingLikes cs).1.toFinset) \ a.liked ⊆
        (assessList dec a.remainingLikes cs).1.toFinset := by
      intro x hx
      rcases Finset.mem_sdiff.mp hx with ⟨hx1, hx2⟩
      rcases Finset.mem_union.mp hx1 with h | h
      · exact absurd h hx2
      · exact h
    have hcard : ((a.liked ∪ (assessList dec a.remainingLikes cs).1.toFinset) \
        a.liked).card ≤ (assessList dec a.remainingLikes cs).1.length :=
      le_trans (Finset.card_le_card hsub)
        (assessList dec a.remainingLikes cs).1.toFinset_card_le
    have hcast : (((a.liked ∪ (assessList dec a.remainingLikes cs).1.toFinset) \
        a.liked).card : Int) ≤ ((assessList dec a.remainingLikes cs).1.length : Int) := by
      exact_mod_cast hcard
    exact le_trans hcast hlen

/-- C5, witness at a concrete agent with allowance 2 assessing three
candidates it always likes. -/
theorem c5_allowance_bound_witness :
    (0 ≤ (mkAgent 0 2 0).likeAllowance ∧
     (mkAgent 0 2 0).remainingLikes = (mkAgent 0 2 0).likeAllowance) ∧
    (0 ≤ (assessCandidates (fun _ => true) (mkAgent 0 2 0) [1, 2, 3]).1.remainingLikes ∧
     (assessCandidates (fun _ => true) (mkAgent 0 2 0) [1, 2, 3]).1.remainingLikes ≤
       (assessCandidates (fun _ => true) (mkAgent 0 2 0) [1, 2, 3]).1.likeAllowance ∧
     (((assessCandidates (fun _ => true) (mkAgent 0 2 0) [1, 2, 3]).2.1.length : Int) ≤
       (mkAgent 0 2 0).likeAllowance ∧
      ((((assessCandidates (fun _ => true) (mkAgent 0 2 0) [1, 2, 3]).1.liked \
        (mkAgent 0 2 0).liked).card : Int) ≤ (mkAgent 0 2 0).likeAllowance))) :=
  ⟨⟨by decide, by decide⟩,
   c5_allowance_bound (fun _ => true) (mkAgent 0 2 0) [1, 2, 3] (by decide) (by decide)⟩

/-- C6: assess_candidates consults the candidates in list order and stops at
the first candidate reached with remaining_likes exhausted: there is a cut
position k such that the ids liked or passed are exactly the first k
candidates, every candidate from position k on is in neither output (it stays
unassessed), each like costs exactly one unit of remaining_likes, and the loop
cut short of the end only with remaining_likes equal to 0. -/
theorem c6_assessment_stops_at_zero (dec : Nat → Bool) (cs : List Nat) (rem : Int)
    (h0 : 0 ≤ rem) (hnd : cs.Nodup) :
    ∃ k ≤ cs.length,
      (∀ c ∈ cs.drop k,
        c ∉ (assessList dec rem cs).1 ∧ c ∉ (assessList dec rem cs).2.1) ∧
      (∀ c, (c ∈ (assessList dec rem cs).1 ∨ c ∈ (assessList dec rem cs).2.1) ↔
        c ∈ cs.take k) ∧
      (assessList dec rem cs).2.2 = rem - ((assessList dec rem cs).1.length : Int) ∧
      (k < cs.length → (assessList dec rem cs).2.2 = 0) := by
  induction cs generalizing rem with
  | nil =>
    exact ⟨0, le_refl 0, by simp [assessList], by simp [assessList],
      by simp [assessList], by simp⟩
  | cons c cs ih =>
    have hc : c ∉ cs := (List.nodup_cons.mp hnd).1
    have hnd2 : cs.Nodup := (List.nodup_cons.mp hnd).2
    by_cases h1 : rem < 1
    · refine ⟨0, Nat.zero_le _, ?_, ?_, ?_, ?_⟩
      · intro x _
        simp [assessList, if_pos h1]
      · intro x
        simp [assessList, if_pos h1]
      · simp [assessList, if_pos h1]
      · intro _
        simp only [assessList, if_pos h1]
        omega
    · by_cases h2 : dec c
      · obtain ⟨k, hk, hdrop, hmem, hrem, hstop⟩ := ih (rem - 1) (by omega) hnd2
        refine ⟨k + 1, by simpa using Nat.succ_le_succ hk, ?_, ?_, ?_, ?_⟩
        · intro x hx
          simp only [List.drop_succ_cons] at hx
          have hxcs : x ∈ cs := List.Sublist.mem hx (List.drop_sublist k cs)
          have hxc : x ≠ c := fun h => hc (h ▸ hxcs)
          have hd := hdrop x hx
          simp only [assessList, if_neg h1, if_pos h2, List.mem_cons]
          exact ⟨fun h => h.elim (fun h3 => hxc h3) (fun h3 => hd.1 h3), hd.2⟩
        · intro x
          simp only [assessList, if_neg h1, if_pos h2, List.take_succ_cons,
            List.mem_cons]
          constructor
          · rintro (h | h)
            · rcases h with h | h
              · exact Or.inl h
              · exact Or.inr ((hmem x).mp (Or.inl h))
            · exact Or.inr ((hmem x).mp (Or.inr h))
          · rintro (h | h)
            · exact Or.inl (Or.inl h)
            · rcases (hmem x).mpr h with h3 | h3
              · exact Or.inl (Or.inr h3)
              · exact Or.inr h3
        · simp only [assessList, if_neg h1, if_pos h2, List.length_cons]
          rw [hrem]
          push_cast
          ring
        · intro hlt
          simp only [assessList, if_neg h1, if_pos h2]
          exact hstop (by simpa using Nat.lt_of_succ_lt_succ hlt)
      · obtain ⟨k, hk, hdrop, hmem, hrem, hstop⟩ := ih rem h0 hnd2
        refine ⟨k + 1, by simpa using Nat.succ_le_succ hk, ?_, ?_, ?_, ?_⟩
        · intro x hx
          simp only [List.drop_succ_cons] at hx
          have hxcs : x ∈ cs := List.Sublist.mem hx (List.drop_sublist k cs)
          have hxc : x ≠ c := fun h => hc (h ▸ hxcs)
          have hd := hdrop x hx
          simp only [assessList, if_neg h1, if_neg h2, List.mem_cons]
          exact ⟨hd.1, fun h => h.elim (fun h3 => hxc h3) (fun h3 => hd.2 h3)⟩
        · intro x
          simp only [assessList, if_neg h1, if_neg h2, List.take_succ_cons,
            List.mem_cons]
          constructor
          · rintro (h | h)
            · exact Or.inr ((hmem x).mp (Or.inl h))
            · rcases h with h | h
              · exact Or.inl h
              · exact Or.inr ((hmem x).mp (Or.inr h))
          · rintro (h | h)
            · exact Or.inr (Or.inl h)
            · rcases (hmem x).mpr h with h3 | h3
              · exact Or.inl h3
              · exact Or.inr (Or.inr h3)
        · simp only [assessList, if_neg h1, if_neg h2]
          exact hrem
        · intro hlt
          simp only [assessList, if_neg h1, if_neg h2]
          exact hstop (by simpa using Nat.lt_of_succ_lt_succ hlt)

/-- C6, witness: one remaining like and candidates [5, 6, 7] with an
always-liking strategy: candidate 5 is liked, the loop then stops, and
candidates 6 and 7 are left unassessed. -/
theorem c6_assessment_stops_at_zero_witness :
    ((0 : Int) ≤ 1 ∧ ([5, 6, 7] : List Nat).Nodup) ∧
    (∃ k ≤ ([5, 6, 7] : List Nat).length,
      (∀ c ∈ ([5, 6, 7] : List Nat).drop k,
        c ∉ (assessList (fun _ => true) 1 [5, 6, 7]).1 ∧
        c ∉ (assessList (fun _ => true) 1 [5, 6, 7]).2.1) ∧
      (∀ c, (c ∈ (assessList (fun _ => true) 1 [5, 6, 7]).1 ∨
             c ∈ (assessList (fun _ => true) 1 [5, 6, 7]).2.1) ↔
        c ∈ ([5, 6, 7] : List Nat).take k) ∧
      (assessList (fun _ => true) 1 [5, 6, 7]).2.2 =
        1 - ((assessList (fun _ => true) 1 [5, 6, 7]).1.length : Int) ∧
      (k < ([5, 6, 7] : List Nat).length →
        (assessList (fun _ => true) 1 [5, 6, 7]).2.2 = 0)) :=
  ⟨⟨by decide, by decide⟩,
   c6_assessment_stops_at_zero (fun _ => true) [5, 6, 7] 1 (by decide) (by decide)⟩

/-- Specification of the strict ranked recommendation list: its size is
min(recommendation_limit, number available), every entry is available, it is
ordered by descending rating distance, and it consists of the candidates whose
rating means are farthest from the agent's (every available candidate left out
is at most as distant as every candidate included). -/
def StrictSelectionSpec (st : RankedState) (a : AgentState) : Prop :=
  (rankedGetAvailableStrict st a).length =
    min st.recommendationLimit (rankedAvailable st a).card ∧
  (∀ c ∈ rankedGetAvailableStrict st a, c ∈ rankedAvailable st a) ∧
  (rankedGetAvailableStrict st a).Sorted
    (fun i j => ratingDistance st a j ≤ ratingDistance st a i) ∧
  (∀ c ∈ rankedAvailable st a, c ∉ rankedGetAvailableStrict st a →
    ∀ x ∈ rankedGetAvailableStrict st a,
      ratingDistance st a c ≤ ratingDistance st a x)

theorem rankedSorted_mem (st : RankedState) (a : AgentState)
    (hsub : ∀ c ∈ rankedAvailable st a, c < st.ratings.length) (x : Nat) :
    x ∈ rankedSorted st a ↔ x ∈ rankedAvailable st a := by
  rw [rankedSorted, (List.perm_insertionSort _ _).mem_iff, List.mem_filter]
  simp only [List.mem_range, decide_eq_true_eq]
  exact ⟨fun h => h.2, fun h => ⟨hsub x h, h⟩⟩

theorem rankedSorted_nodup (st : RankedState) (a : AgentState) :
    (rankedSorted st a).Nodup :=
  ((List.perm_insertionSort _ _).nodup_iff).mpr
    (List.Nodup.filter _ (List.nodup_range _))

theorem rankedSorted_length (st : RankedState) (a : AgentState)
    (hsub : ∀ c ∈ rankedAvailable st a, c < st.ratings.length) :
    (rankedSorted st a).length = (rankedAvailable st a).card := by
  have h1 : (rankedSorted st a).toFinset = rankedAvailable st a := by
    ext x
    rw [List.mem_toFinset]
    exact rankedSorted_mem st a hsub x
  rw [← h1, List.toFinset_card_of_nodup (rankedSorted_nodup st a)]

theorem rankedSorted_sorted (st : RankedState) (a : AgentState) :
    (rankedSorted st a).Sorted
      (fun i j => ratingDistance st a j ≤ ratingDistance st a i) := by
  have htot : IsTotal Nat (fun i j => ratingDistance st a j ≤ ratingDistance st a i) :=
    ⟨fun i j => le_total (ratingDistance st a j) (ratingDistance st a i)⟩
  have htr : IsTrans Nat (fun i j => ratingDistance st a j ≤ ratingDistance st a i) :=
    ⟨fun _ _ _ h1 h2 => le_trans h2 h1⟩
  exact List.sorted_insertionSort _ _

/-- C7: with strict_recommendations the ranked matcher returns the prefix of
length min(recommendation_limit, number available) of the available
candidates sorted by rating distance in descending order, so the selected
candidates are the ones farthest from (least similar to) the agent's rating
mean. -/
theorem c7_strict_takes_farthest (st : RankedState) (a : AgentState)
    (hsub : ∀ c ∈ rankedAvailable st a, c < st.ratings.length) :
    StrictSelectionSpec st a := by
  have hlen := rankedSorted_length st a hsub
  have hsorted := rankedSorted_sorted st a
  have htake : (rankedGetAvailableStrict st a).Sublist (rankedSorted st a) := by
    rw [rankedGetAvailableStrict]
    exact List.take_sublist _ _
  refine ⟨?_, ?_, ?_, ?_⟩
  · rw [rankedGetAvailableStrict, List.length_take]
    omega
  · intro c hc
    exact (rankedSorted_mem st a hsub c).mp (htake.mem hc)
  · exact List.Pairwise.sublist htake hsorted
  · intro c hcav hcnot x hx
    have hcs : c ∈ rankedSorted st a := (rankedSorted_mem st a hsub c).mpr hcav
    set k := min (rankedSorted st a).length st.recommendationLimit with hk
    have hsplit := List.take_append_drop k (rankedSorted st a)
    have hcdrop : c ∈ (rankedSorted st a).drop k := by
      rcases (List.mem_append.mp (hsplit ▸ hcs)) with h | h
      · exact absurd h hcnot
      · exact h
    have hpw := hsorted
    rw [← hsplit] at hpw
    have := (List.pairwise_append.mp hpw).2.2 x hx c hcdrop
    exact this

/-- Four fresh agents under the ranked matcher with limit 2, used as the C7
witness configuration. -/
def stC7 : RankedState :=
  initRankedMatcher
    [mkAgent 0 10 0, mkAgent 1 10 0, mkAgent 2 10 0, mkAgent 3 10 0]
    2 true false true true true

/-- C7, witness at the concrete four-agent ranked state, evaluating the
strict recommendation list for agent 0. -/
theorem c7_strict_takes_farthest_witness :
    (∀ c ∈ rankedAvailable stC7 (mkAgent 0 10 0), c < stC7.ratings.length) ∧
    StrictSelectionSpec stC7 (mkAgent 0 10 0) :=
  ⟨by decide, c7_strict_takes_farthest stC7 (mkAgent 0 10 0) (by decide)⟩

theorem percentile_nil (p : ℚ) : percentile [] p = none := by
  rw [percentile]
  exact if_pos (Or.inl rfl)

theorem collectGo_all_eliminated (o : RoundOracle) (st : MatcherState)
    (is : List Nat)
    (h : ∀ i ∈ is, (st.agents.getD i default).id ∈ st.eliminated) :
    collectGo o st is = (st, []) := by
  induction is with
  | nil => rfl
  | cons i is ih =>
    simp only [collectGo]
    rw [if_pos (h i (List.mem_cons_self i is))]
    exact ih fun j hj => h j (List.mem_cons_of_mem i hj)

theorem rankedCollectGo_all_eliminated (o : RoundOracle) (st : RankedState)
    (is : List Nat)
    (h : ∀ i ∈ is, (st.agents.getD i default).id ∈ st.eliminated) :
    rankedCollectGo o st is = (st, []) := by
  induction is with
  | nil => rfl
  | cons i is ih =>
    simp only [rankedCollectGo]
    rw [if_pos (h i (List.mem_cons_self i is))]
    exact ih fun j hj => h j (List.mem_cons_of_mem i hj)

theorem eliminateBottom_all_eliminated (st : MatcherState) (t : ℚ)
    (h : ∀ a ∈ st.agents, a.id ∈ st.eliminated) :
    eliminateBottom st t = none := by
  have hfilter : st.agents.filter (fun a => a.id ∉ st.eliminated) = [] := by
    rw [List.filter_eq_nil_iff]
    intro a ha
    simpa using h a ha
  rw [eliminateBottom, hfilter]
  simp only [List.map_nil, percentile_nil]

theorem rankedEliminateBottom_all_eliminated (rst : RankedState) (t : ℚ) (u : Bool)
    (h3 : ∀ a ∈ rst.agents, a.id ∈ rst.eliminated)
    (h4 : ∀ i ∈ rst.agentIds, i ∈ rst.eliminated) :
    rankedEliminateBottom rst t u = none := by
  rcases u with _ | _
  · have hfilter : rst.agents.filter (fun a => a.id ∉ rst.eliminated) = [] := by
      rw [List.filter_eq_nil_iff]
      intro a ha
      simpa using h3 a ha
    rw [rankedEliminateBottom]
    rw [if_neg (by simp)]
    rw [hfilter]
    simp only [List.map_nil, percentile_nil]
  · have hfilter : rst.agentIds.filter (fun i => i ∉ rst.eliminated) = ∅ := by
      rw [Finset.filter_eq_empty_iff]
      intro i hi
      simpa using h4 i hi
    rw [rankedEliminateBottom]
    rw [if_pos rfl, hfilter]
    simp only [Finset.sort_empty, List.map_nil, percentile_nil]

theorem getD_mem_of_lt {l : List AgentState} {i : Nat} (h : i < l.length) :
    l.getD i default ∈ l := by
  rw [List.getD_eq_getElem l default h]
  exact l.getElem_mem h

theorem runNewRound_all_eliminated (happy : Nat → Nat → ℚ) (o : RoundOracle)
    (st : MatcherState) (h1 : ∀ a ∈ st.agents, a.id ∈ st.eliminated)
    (h2 : st.waiting = []) :
    runNewRound happy o st =
      { st with round := st.round + 1,
                agents := st.agents.map (logState (st.round + 1)) } := by
  obtain ⟨ags, ids, rnd, mat, lim, wait, elim, re, me⟩ := st
  simp only at h1 h2
  subst h2
  rw [runNewRound]
  rw [collectGo_all_eliminated o _ _ (fun i hi => by
    have hlt : i < ags.length := by simpa using List.mem_range.mp hi
    exact h1 _ (getD_mem_of_lt hlt))]
  rfl

theorem rankedRunNewRound_all_eliminated (rate : RateFun)
    (happy : Nat → Nat → ℚ) (o : RoundOracle)
    (shuffleL shuffleP : List (Nat × List Nat) → List (Nat × List Nat))
    (rst : RankedState) (h3 : ∀ a ∈ rst.agents, a.id ∈ rst.eliminated)
    (h5 : rst.waiting = [])
    (hshl : shuffleL [] = []) (hshp : shuffleP [] = []) :
    rankedRunNewRound rate happy o shuffleL shuffleP rst =
      { rst with round := rst.round + 1,
                 agents := rst.agents.map (logState (rst.round + 1)),
                 ratingLogs := rst.ratingLogs ++ rst.agents.map
                   (fun a => (a.id, rst.round + 1,
                     rst.ratings.getD a.id defaultRating)) } := by
  obtain ⟨ags, ids, rnd, mat, rats, lim, wait, elim, s1, s2, s3, s4, s5, re, me, rl⟩ := rst
  simp only at h3 h5
  subst h5
  rw [rankedRunNewRound]
  rw [rankedCollectGo_all_eliminated o _ _ (fun i hi => by
    have hlt : i < ags.length := by simpa using List.mem_range.mp hi
    exact h3 _ (getD_mem_of_lt hlt))]
  simp only [List.map_nil, hshl, hshp]
  rfl

/-- C2, counterexample.  On a fully eliminated population, eliminate_bottom
does not complete as a benign no-op: the non-eliminated happiness sample is
empty and np.percentile raises on it (modelled by none), on both matcher
variants and in both elimination modes. -/
theorem c2_eliminate_bottom_raises :
    eliminateBottom
      { initRandomMatcher [mkAgent 0 10 0, mkAgent 1 10 0] 3 with
          eliminated := {0, 1} } 50 = none ∧
    rankedEliminateBottom
      { initRankedMatcher [mkAgent 0 10 0, mkAgent 1 10 0] 3 true false true true true with
          eliminated := {0, 1} } 50 false = none ∧
    rankedEliminateBottom
      { initRankedMatcher [mkAgent 0 10 0, mkAgent 1 10 0] 3 true false true true true with
          eliminated := {0, 1} } 50 true = none := by
  refine ⟨rfl, rfl, ?_⟩
  exact rankedEliminateBottom_all_eliminated _ 50 true (by decide) (by decide)

/-- C2, amended.  When every agent of the population is in the elimination
set, run_new_round completes without error and is benign: it only increments
the round counter and appends the per-round history snapshots (and, on the
ranked variant, the rating log); matrix, waiting matches, elimination set and
every agent's interaction state are untouched.  eliminate_bottom, however,
does not complete: the percentile of the empty non-eliminated population is
undefined (np.percentile raises), for every threshold value and on both
variants. -/
theorem c2_all_eliminated_round_benign (st : MatcherState) (rst : RankedState)
    (t : ℚ) (u : Bool) (happy : Nat → Nat → ℚ) (o : RoundOracle) (rate : RateFun)
    (shuffleL shuffleP : List (Nat × List Nat) → List (Nat × List Nat))
    (h1 : ∀ a ∈ st.agents, a.id ∈ st.eliminated)
    (h2 : st.waiting = [])
    (h3 : ∀ a ∈ rst.agents, a.id ∈ rst.eliminated)
    (h4 : ∀ i ∈ rst.agentIds, i ∈ rst.eliminated)
    (h5 : rst.waiting = [])
    (hshl : shuffleL [] = []) (hshp : shuffleP [] = []) :
    eliminateBottom st t = none ∧
    runNewRound happy o st =
      { st with round := st.round + 1,
                agents := st.agents.map (logState (st.round + 1)) } ∧
    rankedEliminateBottom rst t u = none ∧
    rankedRunNewRound rate happy o shuffleL shuffleP rst =
      { rst with round := rst.round + 1,
                 agents := rst.agents.map (logState (rst.round + 1)),
                 ratingLogs := rst.ratingLogs ++ rst.agents.map
                   (fun a => (a.id, rst.round + 1, rst.ratings.getD a.id defaultRating)) } :=
  ⟨eliminateBottom_all_eliminated st t h1,
   runNewRound_all_eliminated happy o st h1 h2,
   rankedEliminateBottom_all_eliminated rst t u h3 h4,
   rankedRunNewRound_all_eliminated rate happy o shuffleL shuffleP rst h3 h5 hshl hshp⟩

/-- Single-agent random-matcher state whose only agent is eliminated. -/
def stAllElim : MatcherState :=
  { initRandomMatcher [mkAgent 0 10 0] 3 with eliminated := {0} }

/-- Single-agent ranked-matcher state whose only agent is eliminated. -/
def rstAllElim : RankedState :=
  { initRankedMatcher [mkAgent 0 10 0] 3 true false true true true with
      eliminated := {0} }

/-- C2, witness for the amended theorem on concrete one-agent states with the
whole population eliminated. -/
theorem c2_all_eliminated_round_benign_witness :
    ((∀ a ∈ stAllElim.agents, a.id ∈ stAllElim.eliminated) ∧
     stAllElim.waiting = [] ∧
     (∀ a ∈ rstAllElim.agents, a.id ∈ rstAllElim.eliminated) ∧
     (∀ i ∈ rstAllElim.agentIds, i ∈ rstAllElim.eliminated) ∧
     rstAllElim.waiting = []) ∧
    (eliminateBottom stAllElim 42 = none ∧
     runNewRound (fun _ _ => 0) ⟨fun _ => [], fun _ _ => true⟩ stAllElim =
       { stAllElim with round := stAllElim.round + 1,
                        agents := stAllElim.agents.map (logState (stAllElim.round + 1)) } ∧
     rankedEliminateBottom rstAllElim 42 true = none ∧
     rankedRunNewRound (fun w l _ => (w, l)) (fun _ _ => 0)
       ⟨fun _ => [], fun _ _ => true⟩ id id rstAllElim =
       { rstAllElim with
           round := rstAllElim.round + 1,
           agents := rstAllElim.agents.map (logState (rstAllElim.round + 1)),
           ratingLogs := rstAllElim.ratingLogs ++ rstAllElim.agents.map
             (fun a => (a.id, rstAllElim.round + 1,
               rstAllElim.ratings.getD a.id defaultRating)) }) :=
  ⟨⟨by decide, rfl, by decide, by decide, rfl⟩,
   c2_all_eliminated_round_benign stAllElim rstAllElim 42 true (fun _ _ => 0)
     ⟨fun _ => [], fun _ _ => true⟩ (fun w l _ => (w, l)) id id
     (by decide) rfl (by decide) (by decide) rfl rfl rfl⟩

/-- Liked set of the agent stored at position i (positions coincide with ids
for populations obeying the documented id discipline). -/
def likedAt (st : MatcherState) (i : Nat) : Finset Nat :=
  (st.agents.getD i default).liked

/-- Passed set of the agent stored at position i. -/
def passedAt (st : MatcherState) (i : Nat) : Finset Nat :=
  (st.agents.getD i default).passed

theorem getD_set_agents (l : List AgentState) (j : Nat) (x : AgentState) (i : Nat) :
    (l.set j x).getD i default = if i = j ∧ j < l.length then x else l.getD i default := by
  rcases eq_or_ne i j with rfl | hne
  · by_cases hj : i < l.length
    · simp [List.getD_eq_getElem?_getD, List.getElem?_set_self hj, hj]
    · have h1 : (l.set i x)[i]? = none := by
        rw [List.getElem?_eq_none_iff, List.length_set]
        omega
      have h2 : l[i]? = none := by
        rw [List.getElem?_eq_none_iff]
        omega
      simp [List.getD_eq_getElem?_getD, h1, h2, hj]
  · simp [List.getD_eq_getElem?_getD, List.getElem?_set_ne (Ne.symm hne), hne]

theorem sortPair_lt {a b : Nat} (h : a ≠ b) :
    (sortPair a b).1 < (sortPair a b).2 := by
  rw [sortPair]
  rcases le_or_lt a b with hle | hlt
  · rw [if_pos hle]
    omega
  · rw [if_neg (by omega)]
    exact hlt

theorem sortPair_eq_or (a b : Nat) : sortPair a b = (a, b) ∨ sortPair a b = (b, a) := by
  rw [sortPair]
  split
  · exact Or.inl rfl
  · exact Or.inr rfl

theorem sortPair_of_lt {a b : Nat} (h : a < b) : sortPair a b = (a, b) := by
  rw [sortPair, if_pos (le_of_lt h)]

theorem sortPair_of_gt {a b : Nat} (h : b < a) : sortPair a b = (b, a) := by
  rw [sortPair, if_neg (by omega)]

theorem sortPair_eq_self {p : Nat × Nat} (h : p.1 < p.2) : sortPair p.1 p.2 = p := by
  rw [sortPair_of_lt h]

theorem eq_of_sortPair_eq {a b : Nat} {q : Nat × Nat}
    (h : sortPair q.1 q.2 = sortPair a b) :
    q = (a, b) ∨ q = (b, a) ∨ q.1 = q.2 := by
  rcases sortPair_eq_or q.1 q.2 with h1 | h1 <;>
    rcases sortPair_eq_or a b with h2 | h2 <;>
      rw [h1, h2] at h <;> rcases Prod.mk.injEq .. ▸ h with ⟨hx, hy⟩
  · exact Or.inl (Prod.ext hx hy)
  · exact Or.inr (Or.inl (Prod.ext hx hy))
  · refine Or.inr (Or.inl ?_)
    exact Prod.ext hy hx
  · exact Or.inl (Prod.ext hy hx)

theorem processLike_matrix (st : MatcherState) (a b : Nat) (x y : Nat) :
    (processLike st a b).matrix x y =
      if (x, y) = (a, b) then 1 else st.matrix x y := by
  rw [processLike]
  have hcond : ((x, y) = (a, b)) ↔ (x = a ∧ y = b) := Prod.mk.injEq .. ▸ Iff.rfl
  split
  · simp only [hcond]
  · simp only [hcond]

theorem processLike_cond (st : MatcherState) (a b : Nat) (hne : a ≠ b) :
    (fun x y => if x = a ∧ y = b then (1 : Int) else st.matrix x y) b a =
      st.matrix b a := by
  simp only [if_neg (by omega : ¬(b = a ∧ a = b))]

theorem processLike_reg (st : MatcherState) (a b : Nat) (hne : a ≠ b) :
    (processLike st a b).registerEvents =
      if st.matrix b a = 1 then st.registerEvents ++ [sortPair a b]
      else st.registerEvents := by
  rw [processLike]
  simp only [processLike_cond st a b hne]
  split
  · rfl
  · rfl

theorem processLike_waiting (st : MatcherState) (a b : Nat) (hne : a ≠ b) :
    (processLike st a b).waiting =
      if st.matrix b a = 1 then
        (if sortPair a b ∈ st.waiting then st.waiting else st.waiting ++ [sortPair a b])
      else st.waiting := by
  rw [processLike]
  simp only [processLike_cond st a b hne]
  split
  · rfl
  · rfl

theorem processLike_frame (st : MatcherState) (a b : Nat) :
    (processLike st a b).agents = st.agents ∧
    (processLike st a b).matchEvents = st.matchEvents ∧
    (processLike st a b).eliminated = st.eliminated ∧
    (processLike st a b).agentIds = st.agentIds ∧
    (processLike st a b).round = st.round ∧
    (processLike st a b).recommendationLimit = st.recommendationLimit := by
  rw [processLike]
  split <;> exact ⟨rfl, rfl, rfl, rfl, rfl, rfl⟩

theorem processPass_matrix (st : MatcherState) (a b : Nat) (x y : Nat) :
    (processPass st a b).matrix x y =
      if (x, y) = (a, b) then -1 else st.matrix x y := by
  rw [processPass]
  have hcond : ((x, y) = (a, b)) ↔ (x = a ∧ y = b) := Prod.mk.injEq .. ▸ Iff.rfl
  simp only [hcond]

theorem processPass_frame (st : MatcherState) (a b : Nat) :
    (processPass st a b).agents = st.agents ∧
    (processPass st a b).matchEvents = st.matchEvents ∧
    (processPass st a b).eliminated = st.eliminated ∧
    (processPass st a b).agentIds = st.agentIds ∧
    (processPass st a b).round = st.round ∧
    (processPass st a b).waiting = st.waiting ∧
    (processPass st a b).registerEvents = st.registerEvents :=
  ⟨rfl, rfl, rfl, rfl, rfl, rfl, rfl⟩

/-- Flattening of a per-agent association list into directed pairs, in
processing order. -/
def pairsFlat : List (Nat × List Nat) → List (Nat × Nat)
  | [] => []
  | e :: es => e.2.map (fun b => (e.1, b)) ++ pairsFlat es

/-- processLikes expressed over the flattened directed pairs. -/
def processLikePairs (st : MatcherState) (ps : List (Nat × Nat)) : MatcherState :=
  ps.foldl (fun s p => processLike s p.1 p.2) st

/-- processPasses expressed over the flattened directed pairs. -/
def processPassPairs (st : MatcherState) (ps : List (Nat × Nat)) : MatcherState :=
  ps.foldl (fun s p => processPass s p.1 p.2) st

theorem processLikes_eq_flat (likes : List (Nat × List Nat)) :
    ∀ st, processLikes st likes = processLikePairs st (pairsFlat likes) := by
  induction likes with
  | nil => intro st; rfl
  | cons e es ih =>
    intro st
    rw [processLikes, List.foldl_cons, pairsFlat, processLikePairs, List.foldl_append]
    rw [List.foldl_map]
    show processLikes _ es = _
    rw [ih]
    rfl

theorem processPasses_eq_flat (passes : List (Nat × List Nat)) :
    ∀ st, processPasses st passes = processPassPairs st (pairsFlat passes) := by
  induction passes with
  | nil => intro st; rfl
  | cons e es ih =>
    intro st
    rw [processPasses, List.foldl_cons, pairsFlat, processPassPairs, List.foldl_append]
    rw [List.foldl_map]
    show processPasses _ es = _
    rw [ih]
    rfl

theorem mem_pairsFlat {l : List (Nat × List Nat)} {p : Nat × Nat} :
    p ∈ pairsFlat l ↔ ∃ e ∈ l, e.1 = p.1 ∧ p.2 ∈ e.2 := by
  induction l with
  | nil => simp [pairsFlat]
  | cons e es ih =>
    simp only [pairsFlat, List.mem_append, List.mem_map, ih, List.mem_cons]
    constructor
    · rintro (⟨b, hb, rfl⟩ | ⟨f, hf, h1, h2⟩)
      · exact ⟨e, Or.inl rfl, rfl, hb⟩
      · exact ⟨f, Or.inr hf, h1, h2⟩
    · rintro ⟨f, (rfl | hf), h1, h2⟩
      · exact Or.inl ⟨p.2, h2, by rw [h1]⟩
      · exact Or.inr ⟨f, hf, h1, h2⟩

theorem pairsFlat_nodup {l : List (Nat × List Nat)}
    (hkeys : (l.map Prod.fst).Nodup) (hvals : ∀ e ∈ l, e.2.Nodup) :
    (pairsFlat l).Nodup := by
  induction l with
  | nil => exact List.nodup_nil
  | cons e es ih =>
    rw [pairsFlat]
    rw [List.map_cons] at hkeys
    have hkey := (List.nodup_cons.mp hkeys).1
    refine List.Nodup.append ?_ (ih (List.nodup_cons.mp hkeys).2
      (fun f hf => hvals f (List.mem_cons_of_mem e hf))) ?_
    · exact List.Nodup.map (fun x y hxy => (Prod.mk.injEq .. ▸ hxy).2)
        (hvals e (List.mem_cons_self e es))
    · intro p hp hp2
      rcases List.mem_map.mp hp with ⟨b, _, rfl⟩
      rcases mem_pairsFlat.mp hp2 with ⟨f, hf, h1, _⟩
      exact hkey (by
        rw [← h1]
        exact List.mem_map.mpr ⟨f, hf, rfl⟩)

theorem assessList_sublist (dec : Nat → Bool) :
    ∀ (cs : List Nat) (rem : Int),
      (assessList dec rem cs).1.Sublist cs ∧ (assessList dec rem cs).2.1.Sublist cs
  | [], rem => by simp [assessList]
  | c :: cs, rem => by
    rw [assessList]
    by_cases h1 : rem < 1
    · simp [h1]
    · have ih1 := assessList_sublist dec cs (rem - 1)
      have ih2 := assessList_sublist dec cs rem
      by_cases h2 : dec c
      · simp only [if_neg h1, if_pos h2]
        exact ⟨List.Sublist.cons₂ c ih1.1, List.Sublist.cons c ih1.2⟩
      · simp only [if_neg h1, if_neg h2]
        exact ⟨List.Sublist.cons c ih2.1, List.Sublist.cons₂ c ih2.2⟩

theorem assessList_disjoint (dec : Nat → Bool) :
    ∀ (cs : List Nat) (rem : Int), cs.Nodup →
      ∀ x ∈ (assessList dec rem cs).1, x ∉ (assessList dec rem cs).2.1
  | [], rem => by simp [assessList]
  | c :: cs, rem => by
    intro hnd x
    have hc : c ∉ cs := (List.nodup_cons.mp hnd).1
    have hnd2 : cs.Nodup := (List.nodup_cons.mp hnd).2
    rw [assessList]
    by_cases h1 : rem < 1
    · simp [h1]
    · by_cases h2 : dec c
      · simp only [if_neg h1, if_pos h2, List.mem_cons]
        rintro (rfl | hx)
        · intro hmem
          exact hc (((assessList_sublist dec cs (rem - 1)).2).mem hmem)
        · exact assessList_disjoint dec cs (rem - 1) hnd2 x hx
      · simp only [if_neg h1, if_neg h2, List.mem_cons]
        intro hx
        have hxcs : x ∈ cs := ((assessList_sublist dec cs rem).1).mem hx
        rintro (rfl | hmem)
        · exact hc hxcs
        · exact assessList_disjoint dec cs rem hnd2 x hx hmem

/-- Mutual like of an (unordered, represented sorted) pair in a matrix: both
directed cells hold a like. -/
def Mutual (m : Nat → Nat → Int) (q : Nat × Nat) : Prop :=
  m q.1 q.2 = 1 ∧ m q.2 q.1 = 1

instance (m : Nat → Nat → Int) (q : Nat × Nat) : Decidable (Mutual m q) := by
  unfold Mutual; infer_instance

theorem mutual_sortPair (m : Nat → Nat → Int) (a b : Nat) :
    Mutual m (sortPair a b) ↔ (m a b = 1 ∧ m b a = 1) := by
  rcases sortPair_eq_or a b with h | h
  · rw [h]
    exact Iff.rfl
  · rw [h]
    exact and_comm

/-- Invariant maintained while the directed like pairs of a round are folded
into the matrix: m0 is the matrix at the start of process_likes and PS the
full list of pairs of the round; ps is the still-unprocessed suffix. -/
def LikeInv (m0 : Nat → Nat → Int) (PS ps : List (Nat × Nat))
    (st : MatcherState) : Prop :=
  (∀ a b, st.matrix a b = 1 ↔ (m0 a b = 1 ∨ ((a, b) ∈ PS ∧ (a, b) ∉ ps))) ∧
  (∀ a b, st.matrix a b = -1 ↔ m0 a b = -1) ∧
  (∀ q : Nat × Nat, st.registerEvents.count q =
    if q.1 < q.2 ∧ Mutual st.matrix q then 1 else 0) ∧
  st.waiting.Nodup ∧
  (∀ q : Nat × Nat, q ∈ st.waiting ↔
    (q.1 < q.2 ∧ Mutual st.matrix q ∧ ¬Mutual m0 q))

theorem untouched_of_sorted_ne {p q : Nat × Nat} (hlt : q.1 < q.2)
    (hqs : q ≠ sortPair p.1 p.2) :
    (q.1, q.2) ≠ (p.1, p.2) ∧ (q.2, q.1) ≠ (p.1, p.2) := by
  constructor
  · intro h
    obtain ⟨h1, h2⟩ : q.1 = p.1 ∧ q.2 = p.2 := Prod.mk.injEq .. ▸ h
    apply hqs
    rw [← h1, ← h2, sortPair_of_lt hlt]
  · intro h
    obtain ⟨h1, h2⟩ : q.2 = p.1 ∧ q.1 = p.2 := Prod.mk.injEq .. ▸ h
    apply hqs
    rw [← h1, ← h2, sortPair_of_gt hlt]

theorem mutual_update (st : MatcherState) (p : Nat × Nat) (hdiag : p.1 ≠ p.2)
    (hcell1 : st.matrix p.1 p.2 ≠ 1) (q : Nat × Nat) (hlt : q.1 < q.2) :
    Mutual (processLike st p.1 p.2).matrix q ↔
      ((st.matrix p.2 p.1 = 1 ∧ q = sortPair p.1 p.2) ∨ Mutual st.matrix q) := by
  have hmat := processLike_matrix st p.1 p.2
  have hp21 : ((p.2, p.1) : Nat × Nat) ≠ (p.1, p.2) := by
    intro h
    exact hdiag (Prod.mk.injEq .. ▸ h).2
  rcases eq_or_ne q (sortPair p.1 p.2) with rfl | hqs
  · rw [mutual_sortPair, mutual_sortPair]
    rw [hmat p.1 p.2, if_pos rfl, hmat p.2 p.1, if_neg hp21]
    constructor
    · rintro ⟨_, h⟩
      exact Or.inl ⟨h, rfl⟩
    · rintro (⟨h, _⟩ | ⟨h, _⟩)
      · exact ⟨rfl, h⟩
      · exact absurd h hcell1
  · have hun := untouched_of_sorted_ne hlt hqs
    rw [Mutual, Mutual, hmat q.1 q.2, if_neg hun.1, hmat q.2 q.1, if_neg hun.2]
    constructor
    · exact Or.inr
    · rintro (⟨_, h⟩ | h)
      · exact absurd h hqs
      · exact h

theorem processLike_step (m0 : Nat → Nat → Int) (PS ps : List (Nat × Nat))
    (p : Nat × Nat) (st : MatcherState)
    (hp : p ∈ PS) (hdiag : p.1 ≠ p.2)
    (hm0 : m0 p.1 p.2 ≠ 1 ∧ m0 p.1 p.2 ≠ -1)
    (hnotps : p ∉ ps)
    (hinv : LikeInv m0 PS (p :: ps) st) :
    LikeInv m0 PS ps (processLike st p.1 p.2) := by
  obtain ⟨h1, h2, h3, h4, h5⟩ := hinv
  have hmat := processLike_matrix st p.1 p.2
  have hcell1 : st.matrix p.1 p.2 ≠ 1 := by
    intro hcontra
    rcases (h1 p.1 p.2).mp hcontra with h | ⟨_, hnot⟩
    · exact hm0.1 h
    · exact hnot (List.mem_cons_self p ps)
  have hmut := mutual_update st p hdiag hcell1
  have hs_lt : (sortPair p.1 p.2).1 < (sortPair p.1 p.2).2 := sortPair_lt hdiag
  have hsmut_m0 : ¬Mutual m0 (sortPair p.1 p.2) := by
    rw [mutual_sortPair]
    rintro ⟨h, _⟩
    exact hm0.1 h
  have hs_not_wait : sortPair p.1 p.2 ∉ st.waiting := by
    intro hmem
    have := ((h5 _).mp hmem).2.1
    rw [mutual_sortPair] at this
    exact hcell1 this.1
  refine ⟨?_, ?_, ?_, ?_, ?_⟩
  · intro a b
    rw [hmat a b]
    rcases eq_or_ne ((a, b) : Nat × Nat) (p.1, p.2) with heq | hne2
    · obtain ⟨rfl, rfl⟩ : a = p.1 ∧ b = p.2 := Prod.mk.injEq .. ▸ heq
      rw [if_pos rfl]
      constructor
      · intro _
        exact Or.inr ⟨hp, hnotps⟩
      · intro _
        rfl
    · rw [if_neg hne2, h1 a b]
      have hmem : ((a, b) ∈ p :: ps ↔ (a, b) ∈ ps) := by
        rw [List.mem_cons]
        exact or_iff_right hne2
      rw [hmem]
  · intro a b
    rw [hmat a b]
    rcases eq_or_ne ((a, b) : Nat × Nat) (p.1, p.2) with heq | hne2
    · obtain ⟨rfl, rfl⟩ : a = p.1 ∧ b = p.2 := Prod.mk.injEq .. ▸ heq
      rw [if_pos rfl]
      constructor
      · intro h
        exact absurd h (by decide)
      · intro h
        exact absurd h hm0.2
    · rw [if_neg hne2]
      exact h2 a b
  · intro q
    rw [processLike_reg st p.1 p.2 hdiag]
    by_cases hrev : st.matrix p.2 p.1 = 1
    · rw [if_pos hrev, List.count_append]
      rcases eq_or_ne q (sortPair p.1 p.2) with rfl | hqs
      · have hcount0 : st.registerEvents.count (sortPair p.1 p.2) = 0 := by
          rw [h3, if_neg]
          rintro ⟨_, hm⟩
          rw [mutual_sortPair] at hm
          exact hcell1 hm.1
        have hnewmut : Mutual (processLike st p.1 p.2).matrix (sortPair p.1 p.2) := by
          rw [hmut _ hs_lt]
          exact Or.inl ⟨hrev, rfl⟩
        rw [hcount0, if_pos ⟨hs_lt, hnewmut⟩]
        simp
      · have hcount1 : List.count q [sortPair p.1 p.2] = 0 := by
          simp [List.count_singleton, Ne.symm hqs]
        rw [hcount1, Nat.add_zero, h3]
        refine if_congr ?_ rfl rfl
        by_cases hlt : q.1 < q.2
        · have hiff : Mutual st.matrix q ↔ Mutual (processLike st p.1 p.2).matrix q := by
            rw [hmut q hlt]
            constructor
            · exact Or.inr
            · rintro (⟨_, h⟩ | h)
              · exact absurd h hqs
              · exact h
          exact and_congr_right fun _ => hiff
        · exact iff_of_false (fun h => hlt h.1) (fun h => hlt h.1)
    · rw [if_neg hrev, h3]
      refine if_congr ?_ rfl rfl
      by_cases hlt : q.1 < q.2
      · have hiff : Mutual st.matrix q ↔ Mutual (processLike st p.1 p.2).matrix q := by
          rw [hmut q hlt]
          constructor
          · exact Or.inr
          · rintro (⟨h, _⟩ | h)
            · exact absurd h hrev
            · exact h
        exact and_congr_right fun _ => hiff
      · exact iff_of_false (fun h => hlt h.1) (fun h => hlt h.1)
  · rw [processLike_waiting st p.1 p.2 hdiag]
    by_cases hrev : st.matrix p.2 p.1 = 1
    · rw [if_pos hrev, if_neg hs_not_wait, List.nodup_append]
      refine ⟨h4, List.nodup_singleton _, ?_⟩
      intro a ha hb
      rw [List.mem_singleton] at hb
      exact hs_not_wait (hb ▸ ha)
    · rw [if_neg hrev]
      exact h4
  · intro q
    rw [processLike_waiting st p.1 p.2 hdiag]
    by_cases hrev : st.matrix p.2 p.1 = 1
    · rw [if_pos hrev, if_neg hs_not_wait, List.mem_append, List.mem_singleton]
      rcases eq_or_ne q (sortPair p.1 p.2) with rfl | hqs
      · have hnewmut : Mutual (processLike st p.1 p.2).matrix (sortPair p.1 p.2) := by
          rw [hmut _ hs_lt]
          exact Or.inl ⟨hrev, rfl⟩
        constructor
        · intro _
          exact ⟨hs_lt, hnewmut, hsmut_m0⟩
        · intro _
          exact Or.inr rfl
      · constructor
        · rintro (hmem | heq)
          · obtain ⟨hlt, hm, hm0m⟩ := (h5 q).mp hmem
            refine ⟨hlt, ?_, hm0m⟩
            rw [hmut q hlt]
            exact Or.inr hm
          · exact absurd heq hqs
        · rintro ⟨hlt, hm, hm0m⟩
          left
          rw [h5 q]
          refine ⟨hlt, ?_, hm0m⟩
          rw [hmut q hlt] at hm
          rcases hm with ⟨_, h⟩ | h
          · exact absurd h hqs
          · exact h
    · rw [if_neg hrev, h5 q]
      by_cases hlt : q.1 < q.2
      · have hiff : Mutual st.matrix q ↔ Mutual (processLike st p.1 p.2).matrix q := by
          rw [hmut q hlt]
          constructor
          · exact Or.inr
          · rintro (⟨h, _⟩ | h)
            · exact absurd h hrev
            · exact h
        rw [hiff]
      · constructor
        · rintro ⟨h, _⟩
          exact absurd h hlt
        · rintro ⟨h, _⟩
          exact absurd h hlt

theorem processLikePairs_inv (m0 : Nat → Nat → Int) (PS : List (Nat × Nat))
    (hPS : ∀ q ∈ PS, q.1 ≠ q.2 ∧ m0 q.1 q.2 ≠ 1 ∧ m0 q.1 q.2 ≠ -1) :
    ∀ (ps : List (Nat × Nat)) (st : MatcherState),
      ps.Nodup → (∀ q ∈ ps, q ∈ PS) → LikeInv m0 PS ps st →
      LikeInv m0 PS [] (processLikePairs st ps) ∧
      (processLikePairs st ps).agents = st.agents ∧
      (processLikePairs st ps).matchEvents = st.matchEvents ∧
      (processLikePairs st ps).eliminated = st.eliminated ∧
      (processLikePairs st ps).agentIds = st.agentIds ∧
      (processLikePairs st ps).round = st.round
  | [], st => fun _ _ hinv => ⟨hinv, rfl, rfl, rfl, rfl, rfl⟩
  | p :: ps, st => fun hnd hsub hinv => by
    have hstep := processLike_step m0 PS ps p st (hsub p (List.mem_cons_self p ps))
      (hPS p (hsub p (List.mem_cons_self p ps))).1
      ⟨(hPS p (hsub p (List.mem_cons_self p ps))).2.1,
       (hPS p (hsub p (List.mem_cons_self p ps))).2.2⟩
      (List.nodup_cons.mp hnd).1 hinv
    have hrec := processLikePairs_inv m0 PS hPS ps (processLike st p.1 p.2)
      (List.nodup_cons.mp hnd).2
      (fun q hq => hsub q (List.mem_cons_of_mem p hq)) hstep
    have hframe := processLike_frame st p.1 p.2
    refine ⟨hrec.1, ?_, ?_, ?_, ?_, ?_⟩
    · rw [show processLikePairs st (p :: ps) =
        processLikePairs (processLike st p.1 p.2) ps from rfl]
      rw [hrec.2.1, hframe.1]
    · rw [show processLikePairs st (p :: ps) =
        processLikePairs (processLike st p.1 p.2) ps from rfl]
      rw [hrec.2.2.1, hframe.2.1]
    · rw [show processLikePairs st (p :: ps) =
        processLikePairs (processLike st p.1 p.2) ps from rfl]
      rw [hrec.2.2.2.1, hframe.2.2.1]
    · rw [show processLikePairs st (p :: ps) =
        processLikePairs (processLike st p.1 p.2) ps from rfl]
      rw [hrec.2.2.2.2.1, hframe.2.2.2.1]
    · rw [show processLikePairs st (p :: ps) =
        processLikePairs (processLike st p.1 p.2) ps from rfl]
      rw [hrec.2.2.2.2.2, hframe.2.2.2.2.1]

/-- Invariant maintained while the directed pass pairs of a round are folded
into the matrix: m1 is the matrix at the start of process_passes and PPS the
full list of pass pairs of the round; pps the still-unprocessed suffix. -/
def PassInv (m1 : Nat → Nat → Int) (PPS pps : List (Nat × Nat))
    (st : MatcherState) : Prop :=
  (∀ a b, st.matrix a b = -1 ↔ (m1 a b = -1 ∨ ((a, b) ∈ PPS ∧ (a, b) ∉ pps))) ∧
  (∀ a b, st.matrix a b = 1 ↔ m1 a b = 1)

theorem processPass_step (m1 : Nat → Nat → Int) (PPS pps : List (Nat × Nat))
    (p : Nat × Nat) (st : MatcherState)
    (hp : p ∈ PPS)
    (hm1 : m1 p.1 p.2 ≠ 1 ∧ m1 p.1 p.2 ≠ -1)
    (hnotps : p ∉ pps)
    (hinv : PassInv m1 PPS (p :: pps) st) :
    PassInv m1 PPS pps (processPass st p.1 p.2) := by
  obtain ⟨h1, h2⟩ := hinv
  have hmat := processPass_matrix st p.1 p.2
  constructor
  · intro a b
    rw [hmat a b]
    rcases eq_or_ne ((a, b) : Nat × Nat) (p.1, p.2) with heq | hne2
    · obtain ⟨rfl, rfl⟩ : a = p.1 ∧ b = p.2 := Prod.mk.injEq .. ▸ heq
      rw [if_pos rfl]
      constructor
      · intro _
        exact Or.inr ⟨hp, hnotps⟩
      · intro _
        rfl
    · rw [if_neg hne2, h1 a b]
      have hmem : ((a, b) ∈ p :: pps ↔ (a, b) ∈ pps) := by
        rw [List.mem_cons]
        exact or_iff_right hne2
      rw [hmem]
  · intro a b
    rw [hmat a b]
    rcases eq_or_ne ((a, b) : Nat × Nat) (p.1, p.2) with heq | hne2
    · obtain ⟨rfl, rfl⟩ : a = p.1 ∧ b = p.2 := Prod.mk.injEq .. ▸ heq
      rw [if_pos rfl]
      constructor
      · intro h
        exact absurd h (by decide)
      · intro h
        exact absurd h hm1.1
    · rw [if_neg hne2]
      exact h2 a b

theorem processPassPairs_inv (m1 : Nat → Nat → Int) (PPS : List (Nat × Nat))
    (hPPS : ∀ q ∈ PPS, m1 q.1 q.2 ≠ 1 ∧ m1 q.1 q.2 ≠ -1) :
    ∀ (pps : List (Nat × Nat)) (st : MatcherState),
      pps.Nodup → (∀ q ∈ pps, q ∈ PPS) → PassInv m1 PPS pps st →
      PassInv m1 PPS [] (processPassPairs st pps) ∧
      (processPassPairs st pps).agents = st.agents ∧
      (processPassPairs st pps).matchEvents = st.matchEvents ∧
      (processPassPairs st pps).eliminated = st.eliminated ∧
      (processPassPairs st pps).agentIds = st.agentIds ∧
      (processPassPairs st pps).round = st.round ∧
      (processPassPairs st pps).waiting = st.waiting ∧
      (processPassPairs st pps).registerEvents = st.registerEvents
  | [], st => fun _ _ hinv => ⟨hinv, rfl, rfl, rfl, rfl, rfl, rfl, rfl⟩
  | p :: pps, st => fun hnd hsub hinv => by
    have hstep := processPass_step m1 PPS pps p st (hsub p (List.mem_cons_self p pps))
      (hPPS p (hsub p (List.mem_cons_self p pps)))
      (List.nodup_cons.mp hnd).1 hinv
    have hrec := processPassPairs_inv m1 PPS hPPS pps (processPass st p.1 p.2)
      (List.nodup_cons.mp hnd).2
      (fun q hq => hsub q (List.mem_cons_of_mem p hq)) hstep
    have hframe := processPass_frame st p.1 p.2
    have hfold : processPassPairs st (p :: pps) =
        processPassPairs (processPass st p.1 p.2) pps := rfl
    rw [hfold]
    refine ⟨hrec.1, ?_, ?_, ?_, ?_, ?_, ?_, ?_⟩
    · rw [hrec.2.1, hframe.1]
    · rw [hrec.2.2.1, hframe.2.1]
    · rw [hrec.2.2.2.1, hframe.2.2.1]
    · rw [hrec.2.2.2.2.1, hframe.2.2.2.1]
    · rw [hrec.2.2.2.2.2.1, hframe.2.2.2.2.1]
    · rw [hrec.2.2.2.2.2.2.1, hframe.2.2.2.2.2.1]
    · rw [hrec.2.2.2.2.2.2.2, hframe.2.2.2.2.2.2]

theorem getD_set {α : Type} (l : List α) (j : Nat) (x : α) (i : Nat) (d : α) :
    (l.set j x).getD i d = if i = j ∧ j < l.length then x else l.getD i d := by
  rcases eq_or_ne i j with rfl | hne
  · by_cases hj : i < l.length
    · simp [List.getD_eq_getElem?_getD, List.getElem?_set_self hj, hj]
    · have h1 : (l.set i x)[i]? = none := by
        rw [List.getElem?_eq_none_iff, List.length_set]
        omega
      have h2 : l[i]? = none := by
        rw [List.getElem?_eq_none_iff]
        omega
      simp [List.getD_eq_getElem?_getD, h1, h2, hj]
  · simp [List.getD_eq_getElem?_getD, List.getElem?_set_ne (Ne.symm hne), hne]

theorem set_getD_self {α : Type} (l : List α) (i : Nat) (d : α) :
    l.set i (l.getD i d) = l := by
  apply List.ext_getElem?
  intro n
  rcases eq_or_ne i n with rfl | hne
  · by_cases h : i < l.length
    · rw [List.getElem?_set_self h, List.getD_eq_getElem l d h,
        List.getElem?_eq_getElem h]
    · have h1 : (l.set i (l.getD i d))[i]? = none := by
        rw [List.getElem?_eq_none_iff, List.length_set]
        omega
      have h2 : l[i]? = none := by
        rw [List.getElem?_eq_none_iff]
        omega
      rw [h1, h2]
  · exact List.getElem?_set_ne hne

theorem map_id_eq_range (l : List AgentState) (n : Nat) (hlen : l.length = n)
    (hid : ∀ j, j < n → (l.getD j default).id = j) :
    l.map (·.id) = List.range n := by
  apply List.ext_getElem?
  intro j
  by_cases hj : j < n
  · have hjl : j < l.length := by omega
    rw [List.getElem?_map, List.getElem?_eq_getElem hjl, List.getElem?_range hj]
    have := hid j hj
    rw [List.getD_eq_getElem l default hjl] at this
    simp [this]
  · have h1 : (l.map (·.id))[j]? = none := by
      rw [List.getElem?_eq_none_iff, List.length_map]
      omega
    have h2 : (List.range n)[j]? = none := by
      rw [List.getElem?_eq_none_iff, List.length_range]
      omega
    rw [h1, h2]

theorem processMatchPair_frame (happy : Nat → Nat → ℚ) (st : MatcherState)
    (p : Nat × Nat) :
    (processMatchPair happy st p).matrix = st.matrix ∧
    (processMatchPair happy st p).waiting = st.waiting ∧
    (processMatchPair happy st p).registerEvents = st.registerEvents ∧
    (processMatchPair happy st p).eliminated = st.eliminated ∧
    (processMatchPair happy st p).agentIds = st.agentIds ∧
    (processMatchPair happy st p).round = st.round ∧
    (processMatchPair happy st p).agents.length = st.agents.length := by
  refine ⟨rfl, rfl, rfl, rfl, rfl, rfl, ?_⟩
  show ((st.agents.set p.1 _).set p.2 _).length = st.agents.length
  rw [List.length_set, List.length_set]

theorem processMatchPair_events (happy : Nat → Nat → ℚ) (st : MatcherState)
    (p : Nat × Nat) :
    (processMatchPair happy st p).matchEvents = st.matchEvents ++
      [((st.agents.getD p.1 default).id, (st.agents.getD p.2 default).id),
       ((st.agents.getD p.2 default).id, (st.agents.getD p.1 default).id)] := rfl

theorem processMatchPair_agentAt (happy : Nat → Nat → ℚ) (st : MatcherState)
    (p : Nat × Nat) (i : Nat) :
    (processMatchPair happy st p).agents.getD i default =
      if i = p.2 ∧ p.2 < st.agents.length then
        getMatched happy (st.agents.getD p.2 default) (st.agents.getD p.1 default).id
      else if i = p.1 ∧ p.1 < st.agents.length then
        getMatched happy (st.agents.getD p.1 default) (st.agents.getD p.2 default).id
      else st.agents.getD i default := by
  show ((st.agents.set p.1 _).set p.2 _).getD i default = _
  rw [getD_set, getD_set, List.length_set]
  rfl

theorem getMatched_id (happy : Nat → Nat → ℚ) (a : AgentState) (b : Nat) :
    (getMatched happy a b).id = a.id := rfl

theorem getMatched_liked (happy : Nat → Nat → ℚ) (a : AgentState) (b : Nat) :
    (getMatched happy a b).liked = a.liked := rfl

theorem getMatched_passed (happy : Nat → Nat → ℚ) (a : AgentState) (b : Nat) :
    (getMatched happy a b).passed = a.passed := rfl

theorem processMatchPair_preserves (happy : Nat → Nat → ℚ) (st : MatcherState)
    (p : Nat × Nat) (i : Nat) :
    likedAt (processMatchPair happy st p) i = likedAt st i ∧
    passedAt (processMatchPair happy st p) i = passedAt st i ∧
    ((processMatchPair happy st p).agents.getD i default).id =
      (st.agents.getD i default).id := by
  rw [likedAt, passedAt, processMatchPair_agentAt]
  split_ifs with h1 h2
  · rw [getMatched_liked, getMatched_passed, getMatched_id, h1.1]
    exact ⟨rfl, rfl, rfl⟩
  · rw [getMatched_liked, getMatched_passed, getMatched_id, h2.1]
    exact ⟨rfl, rfl, rfl⟩
  · exact ⟨rfl, rfl, rfl⟩

theorem processMatchesFold (happy : Nat → Nat → ℚ) :
    ∀ (ws : List (Nat × Nat)) (st : MatcherState),
      ws.Nodup →
      (∀ q ∈ ws, q.1 < q.2 ∧ Mutual st.matrix q ∧
        q.1 < st.agents.length ∧ q.2 < st.agents.length) →
      (∀ j, j < st.agents.length → (st.agents.getD j default).id = j) →
      (∀ q : Nat × Nat, st.matchEvents.count q =
        if q.1 ≠ q.2 ∧ Mutual st.matrix q ∧ sortPair q.1 q.2 ∉ ws then 1 else 0) →
      (ws.foldl (processMatchPair happy) st).matrix = st.matrix ∧
      (ws.foldl (processMatchPair happy) st).waiting = st.waiting ∧
      (ws.foldl (processMatchPair happy) st).registerEvents = st.registerEvents ∧
      (ws.foldl (processMatchPair happy) st).eliminated = st.eliminated ∧
      (ws.foldl (processMatchPair happy) st).agentIds = st.agentIds ∧
      (ws.foldl (processMatchPair happy) st).round = st.round ∧
      (ws.foldl (processMatchPair happy) st).agents.length = st.agents.length ∧
      (∀ i, likedAt (ws.foldl (processMatchPair happy) st) i = likedAt st i) ∧
      (∀ i, passedAt (ws.foldl (processMatchPair happy) st) i = passedAt st i) ∧
      (∀ j, j < st.agents.length →
        ((ws.foldl (processMatchPair happy) st).agents.getD j default).id = j) ∧
      (∀ q : Nat × Nat, (ws.foldl (processMatchPair happy) st).matchEvents.count q =
        if q.1 ≠ q.2 ∧ Mutual st.matrix q then 1 else 0)
  | [], st => by
    intro _ _ hid hmev
    refine ⟨rfl, rfl, rfl, rfl, rfl, rfl, rfl, fun _ => rfl, fun _ => rfl,
      fun j hj => hid j hj, ?_⟩
    intro q
    rw [List.foldl_nil, hmev q]
    refine if_congr ?_ rfl rfl
    constructor
    · rintro ⟨h1, h2, _⟩
      exact ⟨h1, h2⟩
    · rintro ⟨h1, h2⟩
      exact ⟨h1, h2, List.not_mem_nil _⟩
  | p :: ws, st => by
    intro hnd hws hid hmev
    have hp := hws p (List.mem_cons_self p ws)
    have hplt : p.1 < p.2 := hp.1
    have hp1 : p.1 < st.agents.length := hp.2.2.1
    have hp2 : p.2 < st.agents.length := hp.2.2.2
    have hid1 : (st.agents.getD p.1 default).id = p.1 := hid p.1 hp1
    have hid2 : (st.agents.getD p.2 default).id = p.2 := hid p.2 hp2
    have hfr := processMatchPair_frame happy st p
    have hpres := processMatchPair_preserves happy st p
    -- hypotheses for the tail at the updated state
    have hws2 : ∀ q ∈ ws, q.1 < q.2 ∧ Mutual (processMatchPair happy st p).matrix q ∧
        q.1 < (processMatchPair happy st p).agents.length ∧
        q.2 < (processMatchPair happy st p).agents.length := by
      intro q hq
      have h := hws q (List.mem_cons_of_mem p hq)
      rw [hfr.1, hfr.2.2.2.2.2.2]
      exact h
    have hid2' : ∀ j, j < (processMatchPair happy st p).agents.length →
        ((processMatchPair happy st p).agents.getD j default).id = j := by
      intro j hj
      rw [hfr.2.2.2.2.2.2] at hj
      rw [(processMatchPair_preserves happy st p j).2.2]
      exact hid j hj
    have hmev2 : ∀ q : Nat × Nat,
        (processMatchPair happy st p).matchEvents.count q =
        if q.1 ≠ q.2 ∧ Mutual (processMatchPair happy st p).matrix q ∧
            sortPair q.1 q.2 ∉ ws then 1 else 0 := by
      intro q
      rw [processMatchPair_events, hid1, hid2, List.count_append, hmev q, hfr.1]
      have hcnt : List.count q [((p.1 : Nat), (p.2 : Nat)), (p.2, p.1)] =
          (if ((p.1 : Nat), (p.2 : Nat)) = q then 1 else 0) +
          (if ((p.2 : Nat), (p.1 : Nat)) = q then 1 else 0) := by
        simp [List.count_cons, List.count_nil]
        omega
      rcases eq_or_ne q ((p.1 : Nat), (p.2 : Nat)) with rfl | hq1
      · have hsp : sortPair p.1 p.2 = p := sortPair_of_lt hplt
        rw [if_neg, hcnt, if_pos rfl, if_neg (by
          intro h
          exact absurd ((Prod.mk.injEq .. ▸ h).1) (by omega)), if_pos]
        · refine ⟨by omega, ?_, ?_⟩
          · exact hp.2.1
          · rw [hsp]
            exact (List.nodup_cons.mp hnd).1
        · rintro ⟨_, _, hnotin⟩
          rw [hsp] at hnotin
          exact hnotin (List.mem_cons_self p ws)
      · rcases eq_or_ne q ((p.2 : Nat), (p.1 : Nat)) with rfl | hq2
        · have hsp : sortPair p.2 p.1 = p := sortPair_of_gt hplt
          rw [if_neg, hcnt, if_neg (Ne.symm hq1), if_pos rfl, if_pos]
          · refine ⟨by omega, ?_, ?_⟩
            · exact And.comm.mp hp.2.1
            · rw [hsp]
              exact (List.nodup_cons.mp hnd).1
          · rintro ⟨_, _, hnotin⟩
            rw [hsp] at hnotin
            exact hnotin (List.mem_cons_self p ws)
        · rw [hcnt, if_neg (Ne.symm hq1), if_neg (Ne.symm hq2)]
          simp only [Nat.add_zero]
          refine if_congr ?_ rfl rfl
          refine and_congr_right fun hqne => and_congr_right fun _ => ?_
          by_cases hsq : sortPair q.1 q.2 = p
          · have hq' : sortPair q.1 q.2 = sortPair p.1 p.2 := by
              rw [hsq, sortPair_eq_self hplt]
            rcases eq_of_sortPair_eq hq' with h | h | h
            · exact absurd h hq1
            · exact absurd h hq2
            · exact absurd h hqne
          · rw [List.mem_cons]
            constructor
            · intro h h2
              exact h (Or.inr h2)
            · intro h h2
              rcases h2 with h2 | h2
              · exact hsq h2
              · exact h h2
    have ih := processMatchesFold happy ws (processMatchPair happy st p)
      (List.nodup_cons.mp hnd).2 hws2 hid2' hmev2
    have hfold : ((p :: ws).foldl (processMatchPair happy) st) =
        ws.foldl (processMatchPair happy) (processMatchPair happy st p) := rfl
    rw [hfold]
    refine ⟨?_, ?_, ?_, ?_, ?_, ?_, ?_, ?_, ?_, ?_, ?_⟩
    · rw [ih.1, hfr.1]
    · rw [ih.2.1, hfr.2.1]
    · rw [ih.2.2.1, hfr.2.2.1]
    · rw [ih.2.2.2.1, hfr.2.2.2.1]
    · rw [ih.2.2.2.2.1, hfr.2.2.2.2.1]
    · rw [ih.2.2.2.2.2.1, hfr.2.2.2.2.2.1]
    · rw [ih.2.2.2.2.2.2.1, hfr.2.2.2.2.2.2]
    · intro i
      rw [ih.2.2.2.2.2.2.2.1 i, (hpres i).1]
    · intro i
      rw [ih.2.2.2.2.2.2.2.2.1 i, (processMatchPair_preserves happy st p i).2.1]
    · intro j hj
      refine ih.2.2.2.2.2.2.2.2.2.1 j ?_
      rw [hfr.2.2.2.2.2.2]
      exact hj
    · intro q
      rw [ih.2.2.2.2.2.2.2.2.2.2 q, hfr.1]

theorem map_id_filter (l : List AgentState) (s : List Nat) :
    (getAgentsByIds l s).map (·.id) =
      (l.map (·.id)).filter (fun n => n ∈ s) := by
  induction l with
  | nil => rfl
  | cons a l ih =>
    rw [getAgentsByIds] at ih ⊢
    by_cases h : a.id ∈ s <;>
      simp [List.filter_cons, h, ih]

theorem details_congr (l1 l2 : List AgentState)
    (h : l1.map (·.id) = l2.map (·.id)) (s : List Nat) :
    (getAgentsByIds l1 s).map (·.id) = (getAgentsByIds l2 s).map (·.id) := by
  rw [map_id_filter, map_id_filter, h]

/-- Pure description of one loop iteration of the collection phase of
run_new_round, as a function of the state at the start of the round: none for
an eliminated agent, otherwise the agent id together with the liked and
passed lists its assessment of the sampled details produces. -/
def roundEntry (o : RoundOracle) (st : MatcherState) (i : Nat) :
    Option (Nat × List Nat × List Nat) :=
  let a := st.agents.getD i default
  if a.id ∈ st.eliminated then none
  else
    let details := (getAgentsByIds st.agents (o.sample a.id)).map (·.id)
    some (a.id, (assessList (o.dec a.id) a.likeAllowance details).1,
          (assessList (o.dec a.id) a.likeAllowance details).2.1)

/-- Resulting agent of one processed position, as a function of the state at
the start of the round. -/
def roundAgent (o : RoundOracle) (st : MatcherState) (i : Nat) : AgentState :=
  let a := st.agents.getD i default
  if a.id ∈ st.eliminated then a
  else
    (assessCandidates (o.dec a.id) { a with remainingLikes := a.likeAllowance }
      ((getAgentsByIds st.agents (o.sample a.id)).map (·.id))).1

theorem collectGo_frame (o : RoundOracle) :
    ∀ (is : List Nat) (st : MatcherState),
      (collectGo o st is).1.matrix = st.matrix ∧
      (collectGo o st is).1.waiting = st.waiting ∧
      (collectGo o st is).1.registerEvents = st.registerEvents ∧
      (collectGo o st is).1.matchEvents = st.matchEvents ∧
      (collectGo o st is).1.eliminated = st.eliminated ∧
      (collectGo o st is).1.agentIds = st.agentIds ∧
      (collectGo o st is).1.round = st.round ∧
      (collectGo o st is).1.agents.map (·.id) = st.agents.map (·.id) ∧
      (collectGo o st is).1.agents.length = st.agents.length ∧
      (collectGo o st is).1.recommendationLimit = st.recommendationLimit
  | [], st => ⟨rfl, rfl, rfl, rfl, rfl, rfl, rfl, rfl, rfl, rfl⟩
  | i :: is, st => by
    rw [collectGo]
    split
    · exact collectGo_frame o is st
    · have hrec := collectGo_frame o is
      refine ⟨(hrec _).1, (hrec _).2.1, (hrec _).2.2.1, (hrec _).2.2.2.1,
        (hrec _).2.2.2.2.1, (hrec _).2.2.2.2.2.1, (hrec _).2.2.2.2.2.2.1,
        ?_, ?_, (hrec _).2.2.2.2.2.2.2.2.2⟩
      · refine ((hrec _).2.2.2.2.2.2.2.1).trans ?_
        show (st.agents.set i _).map (·.id) = _
        rw [List.map_set]
        show (st.agents.map (·.id)).set i (st.agents.getD i default).id = _
        rw [show (st.agents.getD i default).id =
          (st.agents.map (·.id)).getD i (default : AgentState).id from
          (List.getD_map st.agents default (·.id)).symm]
        exact set_getD_self _ i _
      · refine ((hrec _).2.2.2.2.2.2.2.2.1).trans ?_
        show (st.agents.set i _).length = _
        rw [List.length_set]

theorem collectGo_untouched (o : RoundOracle) :
    ∀ (is : List Nat) (st : MatcherState) (i : Nat), i ∉ is →
      (collectGo o st is).1.agents.getD i default = st.agents.getD i default
  | [], st, i => fun _ => rfl
  | j :: is, st, i => fun hmem => by
    have hji : i ≠ j := fun h => hmem (h ▸ List.mem_cons_self j is)
    have his : i ∉ is := fun h => hmem (List.mem_cons_of_mem j h)
    rw [collectGo]
    split
    · exact collectGo_untouched o is st i his
    · rw [collectGo_untouched o is _ i his]
      show (st.agents.set j _).getD i default = _
      rw [getD_set]
      rw [if_neg (fun h => hji h.1)]

theorem collectGo_processed (o : RoundOracle) :
    ∀ (is : List Nat) (st st0 : MatcherState),
      (∀ k ∈ is, st.agents.getD k default = st0.agents.getD k default) →
      st.agents.map (·.id) = st0.agents.map (·.id) →
      st.eliminated = st0.eliminated →
      st.agents.length = st0.agents.length →
      (∀ k ∈ is, k < st0.agents.length) →
      is.Nodup → ∀ i ∈ is,
      (collectGo o st is).1.agents.getD i default = roundAgent o st0 i
  | [], st, st0 => fun _ _ _ _ _ _ i hmem => absurd hmem (List.not_mem_nil i)
  | j :: is, st, st0 => fun hrel hmapid helim hlen hbound hnd i hmem => by
    have hndtail : is.Nodup := (List.nodup_cons.mp hnd).2
    have hjtail : j ∉ is := (List.nodup_cons.mp hnd).1
    have hj : st.agents.getD j default = st0.agents.getD j default :=
      hrel j (List.mem_cons_self j is)
    have hjlen : j < st.agents.length := by
      have := hbound j (List.mem_cons_self j is)
      omega
    rw [collectGo]
    split
    · next helimj =>
      rcases eq_or_ne i j with rfl | hij
      · rw [collectGo_untouched o is st i hjtail]
        simp only [roundAgent]
        rw [if_pos]
        · exact hj
        · rw [← hj, ← helim]
          exact helimj
      · have hitail : i ∈ is := by
          rcases List.mem_cons.mp hmem with h | h
          · exact absurd h hij
          · exact h
        exact collectGo_processed o is st st0
          (fun k hk => hrel k (List.mem_cons_of_mem j hk)) hmapid helim hlen
          (fun k hk => hbound k (List.mem_cons_of_mem j hk)) hndtail i hitail
    · next helimj =>
      rcases eq_or_ne i j with rfl | hij
      · rw [collectGo_untouched o is _ i hjtail]
        show (st.agents.set i _).getD i default = _
        rw [getD_set, if_pos ⟨rfl, hjlen⟩]
        simp only [roundAgent]
        rw [if_neg (by rw [← hj, ← helim]; exact helimj)]
        rw [hj, details_congr st.agents st0.agents hmapid]
      · have hitail : i ∈ is := by
          rcases List.mem_cons.mp hmem with h | h
          · exact absurd h hij
          · exact h
        refine collectGo_processed o is _ st0 ?_ ?_ ?_ ?_ ?_ hndtail i hitail
        · intro k hk
          have hkj : k ≠ j := fun h => hjtail (h ▸ hk)
          show (st.agents.set j _).getD k default = _
          rw [getD_set, if_neg (fun h => hkj h.1)]
          exact hrel k (List.mem_cons_of_mem j hk)
        · show (st.agents.set j _).map (·.id) = _
          rw [List.map_set]
          show (st.agents.map (·.id)).set j (st.agents.getD j default).id = _
          rw [show (st.agents.getD j default).id =
            (st.agents.map (·.id)).getD j (default : AgentState).id from
            (List.getD_map st.agents default (·.id)).symm]
          rw [set_getD_self]
          exact hmapid
        · exact helim
        · show (st.agents.set j _).length = _
          rw [List.length_set]
          exact hlen
        · exact fun k hk => hbound k (List.mem_cons_of_mem j hk)

theorem collectGo_entries (o : RoundOracle) :
    ∀ (is : List Nat) (st st0 : MatcherState),
      (∀ k ∈ is, st.agents.getD k default = st0.agents.getD k default) →
      st.agents.map (·.id) = st0.agents.map (·.id) →
      st.eliminated = st0.eliminated →
      st.agents.length = st0.agents.length →
      is.Nodup →
      (collectGo o st is).2 = is.filterMap (roundEntry o st0)
  | [], st, st0 => fun _ _ _ _ _ => rfl
  | j :: is, st, st0 => fun hrel hmapid helim hlen hnd => by
    have hndtail : is.Nodup := (List.nodup_cons.mp hnd).2
    have hjtail : j ∉ is := (List.nodup_cons.mp hnd).1
    have hj : st.agents.getD j default = st0.agents.getD j default :=
      hrel j (List.mem_cons_self j is)
    rw [collectGo, List.filterMap_cons]
    split
    · next helimj =>
      have hnone : roundEntry o st0 j = none := by
        simp only [roundEntry]
        rw [if_pos]
        rw [← hj, ← helim]
        exact helimj
      rw [hnone]
      exact collectGo_entries o is st st0
        (fun k hk => hrel k (List.mem_cons_of_mem j hk)) hmapid helim hlen hndtail
    · next helimj =>
      have hsome : roundEntry o st0 j = some
          ((st.agents.getD j default).id,
           (assessList (o.dec (st.agents.getD j default).id)
             (st.agents.getD j default).likeAllowance
             ((getAgentsByIds st.agents
               (o.sample (st.agents.getD j default).id)).map (·.id))).1,
           (assessList (o.dec (st.agents.getD j default).id)
             (st.agents.getD j default).likeAllowance
             ((getAgentsByIds st.agents
               (o.sample (st.agents.getD j default).id)).map (·.id))).2.1) := by
        simp only [roundEntry]
        rw [if_neg (by rw [← hj, ← helim]; exact helimj)]
        rw [hj, details_congr st.agents st0.agents hmapid]
      rw [hsome]
      refine congrArg₂ List.cons rfl ?_
      refine collectGo_entries o is _ st0 ?_ ?_ helim ?_ hndtail
      · intro k hk
        have hkj : k ≠ j := fun h => hjtail (h ▸ hk)
        show (st.agents.set j _).getD k default = _
        rw [getD_set, if_neg (fun h => hkj h.1)]
        exact hrel k (List.mem_cons_of_mem j hk)
      · show (st.agents.set j _).map (·.id) = _
        rw [List.map_set]
        show (st.agents.map (·.id)).set j (st.agents.getD j default).id = _
        rw [show (st.agents.getD j default).id =
          (st.agents.map (·.id)).getD j (default : AgentState).id from
          (List.getD_map st.agents default (·.id)).symm]
        rw [set_getD_self]
        exact hmapid
      · show (st.agents.set j _).length = _
        rw [List.length_set]
        exact hlen

/-- Candidate details list seen by the agent at position i, as a function of
the round-start state. -/
def detailsAt (o : RoundOracle) (st : MatcherState) (i : Nat) : List Nat :=
  (getAgentsByIds st.agents (o.sample (st.agents.getD i default).id)).map (·.id)

/-- Ids liked in the round by the agent at position i. -/
def roundLiked (o : RoundOracle) (st : MatcherState) (i : Nat) : List Nat :=
  (assessList (o.dec (st.agents.getD i default).id)
    (st.agents.getD i default).likeAllowance (detailsAt o st i)).1

/-- Ids passed in the round by the agent at position i. -/
def roundPassed (o : RoundOracle) (st : MatcherState) (i : Nat) : List Nat :=
  (assessList (o.dec (st.agents.getD i default).id)
    (st.agents.getD i default).likeAllowance (detailsAt o st i)).2.1

theorem roundEntry_eq (o : RoundOracle) (st : MatcherState) (i : Nat) :
    roundEntry o st i =
      if (st.agents.getD i default).id ∈ st.eliminated then none
      else some ((st.agents.getD i default).id, roundLiked o st i,
        roundPassed o st i) := rfl

theorem roundAgent_id (o : RoundOracle) (st : MatcherState) (i : Nat) :
    (roundAgent o st i).id = (st.agents.getD i default).id := by
  rw [roundAgent]
  split <;> rfl

theorem roundAgent_liked (o : RoundOracle) (st : MatcherState) (i : Nat) :
    (roundAgent o st i).liked =
      if (st.agents.getD i default).id ∈ st.eliminated then
        (st.agents.getD i default).liked
      else (st.agents.getD i default).liked ∪ (roundLiked o st i).toFinset := by
  rw [roundAgent]
  split
  · rfl
  · rfl

theorem roundAgent_passed (o : RoundOracle) (st : MatcherState) (i : Nat) :
    (roundAgent o st i).passed =
      if (st.agents.getD i default).id ∈ st.eliminated then
        (st.agents.getD i default).passed
      else (st.agents.getD i default).passed ∪ (roundPassed o st i).toFinset := by
  rw [roundAgent]
  split
  · rfl
  · rfl

theorem idAt_of_wf {st : MatcherState}
    (h : st.agents.map (·.id) = List.range st.agents.length)
    (i : Nat) (hi : i < st.agents.length) :
    (st.agents.getD i default).id = i := by
  have h1 : (st.agents.map (·.id)).getD i ((default : AgentState).id) =
      (st.agents.getD i default).id := List.getD_map st.agents default (·.id)
  rw [h] at h1
  have hlen : i < (List.range st.agents.length).length := by
    rw [List.length_range]
    exact hi
  rw [List.getD_eq_getElem _ _ hlen, List.getElem_range] at h1
  exact h1.symm

theorem likedAt_out {st : MatcherState} {a : Nat}
    (h : st.agents.length ≤ a) : likedAt st a = ∅ := by
  rw [likedAt, List.getD_eq_getElem?_getD,
    List.getElem?_eq_none_iff.mpr (by omega)]
  rfl

theorem passedAt_out {st : MatcherState} {a : Nat}
    (h : st.agents.length ≤ a) : passedAt st a = ∅ := by
  rw [passedAt, List.getD_eq_getElem?_getD,
    List.getElem?_eq_none_iff.mpr (by omega)]
  rfl

theorem detailsAt_nodup (o : RoundOracle) (st : MatcherState)
    (hwf : st.agents.map (·.id) = List.range st.agents.length) (i : Nat) :
    (detailsAt o st i).Nodup := by
  rw [detailsAt, map_id_filter, hwf]
  exact List.Nodup.filter _ (List.nodup_range _)

theorem detailsAt_subset_sample (o : RoundOracle) (st : MatcherState) (i : Nat)
    {b : Nat} (h : b ∈ detailsAt o st i) :
    b ∈ o.sample (st.agents.getD i default).id := by
  rw [detailsAt, map_id_filter] at h
  have := (List.mem_filter.mp h).2
  simpa using this

theorem entryKeys_sublist (o : RoundOracle) (st : MatcherState) :
    ∀ (is : List Nat),
      (∀ i ∈ is, ∀ e, roundEntry o st i = some e → e.1 = i) →
      ((is.filterMap (roundEntry o st)).map (fun e => e.1)).Sublist is
  | [] => fun _ => List.Sublist.refl []
  | i :: is => fun hkey => by
    rw [List.filterMap_cons]
    rcases h : roundEntry o st i with _ | e
    · exact List.Sublist.cons i
        (entryKeys_sublist o st is fun j hj => hkey j (List.mem_cons_of_mem i hj))
    · rw [List.map_cons]
      rw [hkey i (List.mem_cons_self i is) e h]
      exact List.Sublist.cons₂ i
        (entryKeys_sublist o st is fun j hj => hkey j (List.mem_cons_of_mem i hj))

/-- Characterization of the directed like pairs of a round. -/
theorem mem_likePairs (o : RoundOracle) (st : MatcherState) (n : Nat)
    (hn : n = st.agents.length)
    (hwf : st.agents.map (·.id) = List.range st.agents.length) (p : Nat × Nat) :
    p ∈ pairsFlat (((List.range n).filterMap (roundEntry o st)).map
        (fun e => (e.1, e.2.1))) ↔
      (p.1 < n ∧ (st.agents.getD p.1 default).id ∉ st.eliminated ∧
       p.2 ∈ roundLiked o st p.1) := by
  rw [mem_pairsFlat]
  constructor
  · rintro ⟨e, he, hkey, hval⟩
    rcases List.mem_map.mp he with ⟨e0, he0, rfl⟩
    rcases List.mem_filterMap.mp he0 with ⟨i, hi, hsome⟩
    have hin : i < n := List.mem_range.mp hi
    rw [roundEntry_eq] at hsome
    by_cases helim : (st.agents.getD i default).id ∈ st.eliminated
    · rw [if_pos helim] at hsome
      cases hsome
    · rw [if_neg helim] at hsome
      have hid : (st.agents.getD i default).id = i := idAt_of_wf hwf i (by omega)
      have he0eq : ((st.agents.getD i default).id, roundLiked o st i,
          roundPassed o st i) = e0 := Option.some.inj hsome
      rw [← he0eq] at hkey hval
      simp only at hkey hval
      have hp1 : p.1 = i := by rw [← hkey, hid]
      refine ⟨by omega, ?_, ?_⟩
      · rw [hp1]
        exact helim
      · rw [hp1]
        exact hval
  · rintro ⟨hlt, helim, hval⟩
    refine ⟨((st.agents.getD p.1 default).id, roundLiked o st p.1), ?_, ?_, hval⟩
    · refine List.mem_map.mpr ⟨((st.agents.getD p.1 default).id,
        roundLiked o st p.1, roundPassed o st p.1), ?_, rfl⟩
      refine List.mem_filterMap.mpr ⟨p.1, List.mem_range.mpr hlt, ?_⟩
      rw [roundEntry_eq, if_neg helim]
    · exact idAt_of_wf hwf p.1 (by omega)

/-- Characterization of the directed pass pairs of a round. -/
theorem mem_passPairs (o : RoundOracle) (st : MatcherState) (n : Nat)
    (hn : n = st.agents.length)
    (hwf : st.agents.map (·.id) = List.range st.agents.length) (p : Nat × Nat) :
    p ∈ pairsFlat (((List.range n).filterMap (roundEntry o st)).map
        (fun e => (e.1, e.2.2))) ↔
      (p.1 < n ∧ (st.agents.getD p.1 default).id ∉ st.eliminated ∧
       p.2 ∈ roundPassed o st p.1) := by
  rw [mem_pairsFlat]
  constructor
  · rintro ⟨e, he, hkey, hval⟩
    rcases List.mem_map.mp he with ⟨e0, he0, rfl⟩
    rcases List.mem_filterMap.mp he0 with ⟨i, hi, hsome⟩
    have hin : i < n := List.mem_range.mp hi
    rw [roundEntry_eq] at hsome
    by_cases helim : (st.agents.getD i default).id ∈ st.eliminated
    · rw [if_pos helim] at hsome
      cases hsome
    · rw [if_neg helim] at hsome
      have hid : (st.agents.getD i default).id = i := idAt_of_wf hwf i (by omega)
      have he0eq : ((st.agents.getD i default).id, roundLiked o st i,
          roundPassed o st i) = e0 := Option.some.inj hsome
      rw [← he0eq] at hkey hval
      simp only at hkey hval
      have hp1 : p.1 = i := by rw [← hkey, hid]
      refine ⟨by omega, ?_, ?_⟩
      · rw [hp1]
        exact helim
      · rw [hp1]
        exact hval
  · rintro ⟨hlt, helim, hval⟩
    refine ⟨((st.agents.getD p.1 default).id, roundPassed o st p.1), ?_, ?_, hval⟩
    · refine List.mem_map.mpr ⟨((st.agents.getD p.1 default).id,
        roundLiked o st p.1, roundPassed o st p.1), ?_, rfl⟩
      refine List.mem_filterMap.mpr ⟨p.1, List.mem_range.mpr hlt, ?_⟩
      rw [roundEntry_eq, if_neg helim]
    · exact idAt_of_wf hwf p.1 (by omega)

/-- System invariant of the random matcher at round boundaries: ids are the
positions, the matrix cells mirror the liked and passed sets, no match is
pending, every registration event was fired exactly once per mutually liking
pair, and both get_matched events of such a pair were fired exactly once. -/
structure Inv (st : MatcherState) : Prop where
  wf : st.agents.map (·.id) = List.range st.agents.length
  ids : st.agentIds = (List.range st.agents.length).toFinset
  mpos : ∀ a b, st.matrix a b = 1 ↔ b ∈ likedAt st a
  mneg : ∀ a b, st.matrix a b = -1 ↔ b ∈ passedAt st a
  wait : st.waiting = []
  reg : ∀ q : Nat × Nat, st.registerEvents.count q =
    if q.1 < q.2 ∧ Mutual st.matrix q then 1 else 0
  mev : ∀ q : Nat × Nat, st.matchEvents.count q =
    if q.1 ≠ q.2 ∧ Mutual st.matrix q then 1 else 0

theorem inv_init (agents : List AgentState) (limit : Nat)
    (hids : agents.map (·.id) = List.range agents.length)
    (hfresh : ∀ a ∈ agents, a.liked = ∅ ∧ a.passed = ∅) :
    Inv (initRandomMatcher agents limit) := by
  have hlik : ∀ a, likedAt (initRandomMatcher agents limit) a = ∅ := by
    intro a
    rw [likedAt]
    show (agents.getD a default).liked = ∅
    by_cases h : a < agents.length
    · exact (hfresh _ (getD_mem_of_lt h)).1
    · rw [List.getD_eq_getElem?_getD, List.getElem?_eq_none_iff.mpr (by omega)]
      rfl
  have hpas : ∀ a, passedAt (initRandomMatcher agents limit) a = ∅ := by
    intro a
    rw [passedAt]
    show (agents.getD a default).passed = ∅
    by_cases h : a < agents.length
    · exact (hfresh _ (getD_mem_of_lt h)).2
    · rw [List.getD_eq_getElem?_getD, List.getElem?_eq_none_iff.mpr (by omega)]
      rfl
  refine ⟨hids, ?_, ?_, ?_, rfl, ?_, ?_⟩
  · show (agents.map (·.id)).toFinset = _
    rw [hids]
    rfl
  · intro a b
    rw [hlik a]
    simp only [Finset.not_mem_empty, iff_false]
    intro h
    have h0 : (0 : Int) = 1 := h
    exact absurd h0 (by decide)
  · intro a b
    rw [hpas a]
    simp only [Finset.not_mem_empty, iff_false]
    intro h
    have h0 : (0 : Int) = -1 := h
    exact absurd h0 (by decide)
  · intro q
    show List.count q [] = _
    rw [List.count_nil, if_neg]
    rintro ⟨_, h, _⟩
    have h0 : (0 : Int) = 1 := h
    exact absurd h0 (by decide)
  · intro q
    show List.count q [] = _
    rw [List.count_nil, if_neg]
    rintro ⟨_, h, _⟩
    have h0 : (0 : Int) = 1 := h
    exact absurd h0 (by decide)

theorem inv_eliminateBottom {st st2 : MatcherState} {t : ℚ}
    (h : eliminateBottom st t = some st2) (hInv : Inv st) : Inv st2 := by
  rw [eliminateBottom] at h
  rcases hp : percentile ((st.agents.filter
      (fun a => a.id ∉ st.eliminated)).map (·.happiness)) t with _ | v
  · rw [hp] at h
    cases h
  · rw [hp] at h
    obtain rfl : _ = st2 := Option.some.inj h
    exact ⟨hInv.wf, hInv.ids, hInv.mpos, hInv.mneg, hInv.wait, hInv.reg, hInv.mev⟩

theorem likedAt_logAgents (st : MatcherState) (i : Nat) :
    likedAt (logAgents st) i = likedAt st i ∧
    passedAt (logAgents st) i = passedAt st i := by
  rw [likedAt, passedAt, likedAt, passedAt]
  show ((st.agents.map (logState st.round)).getD i default).liked = _ ∧
    ((st.agents.map (logState st.round)).getD i default).passed = _
  by_cases h : i < st.agents.length
  · have heq : (st.agents.map (logState st.round)).getD i default =
        logState st.round (st.agents.getD i default) := by
      rw [List.getD_eq_getElem _ _ (by rw [List.length_map]; exact h),
        List.getElem_map, List.getD_eq_getElem _ _ h]
    rw [heq]
    exact ⟨rfl, rfl⟩
  · have h1 : (st.agents.map (logState st.round)).getD i default = default := by
      rw [List.getD_eq_getElem?_getD,
        List.getElem?_eq_none_iff.mpr (by rw [List.length_map]; omega)]
      rfl
    have h2 : st.agents.getD i default = default := by
      rw [List.getD_eq_getElem?_getD, List.getElem?_eq_none_iff.mpr (by omega)]
      rfl
    rw [h1, h2]
    exact ⟨rfl, rfl⟩

theorem logAgents_map_id (st : MatcherState) :
    (logAgents st).agents.map (·.id) = st.agents.map (·.id) := by
  show (st.agents.map (logState st.round)).map (·.id) = _
  rw [List.map_map]
  rfl

theorem runNewRound_eq (happy : Nat → Nat → ℚ) (o : RoundOracle) (st : MatcherState) :
    runNewRound happy o st =
      logAgents (processMatches happy (processPasses
        (processLikes (collectGo o { st with round := st.round + 1 }
            (List.range st.agents.length)).1
          ((collectGo o { st with round := st.round + 1 }
            (List.range st.agents.length)).2.map (fun e => (e.1, e.2.1))))
        ((collectGo o { st with round := st.round + 1 }
          (List.range st.agents.length)).2.map (fun e => (e.1, e.2.2))))) := rfl

theorem inv_runNewRound (happy : Nat → Nat → ℚ) (o : RoundOracle)
    (st : MatcherState) (hInv : Inv st) (hO : ValidOracle st o) :
    Inv (runNewRound happy o st) := by
  obtain ⟨hwf, hids, hmpos, hmneg, hwait, hreg, hmev⟩ := hInv
  rw [runNewRound_eq]
  set n := st.agents.length with hn
  set st1 : MatcherState := { st with round := st.round + 1 } with hst1
  set c := collectGo o st1 (List.range n) with hc
  have hframe := collectGo_frame o (List.range n) st1
  have hfm : c.1.matrix = st.matrix := hframe.1
  have hfw : c.1.waiting = st.waiting := hframe.2.1
  have hfr : c.1.registerEvents = st.registerEvents := hframe.2.2.1
  have hfme : c.1.matchEvents = st.matchEvents := hframe.2.2.2.1
  have hfaid : c.1.agentIds = st.agentIds := hframe.2.2.2.2.2.1
  have hfmap : c.1.agents.map (·.id) = st.agents.map (·.id) :=
    hframe.2.2.2.2.2.2.2.1
  have hflen : c.1.agents.length = n := hframe.2.2.2.2.2.2.2.2.1
  have hE : c.2 = (List.range n).filterMap (roundEntry o st1) :=
    collectGo_entries o (List.range n) st1 st1 (fun _ _ => rfl) rfl rfl rfl
      (List.nodup_range n)
  have hproc : ∀ i, i < n → c.1.agents.getD i default = roundAgent o st1 i := by
    intro i hi
    exact collectGo_processed o (List.range n) st1 st1 (fun _ _ => rfl) rfl rfl rfl
      (fun k hk => List.mem_range.mp hk) (List.nodup_range n) i
      (List.mem_range.mpr hi)
  have huntouched : ∀ i, ¬ i < n →
      c.1.agents.getD i default = st.agents.getD i default := by
    intro i hi
    exact collectGo_untouched o (List.range n) st1 i
      (fun h => hi (List.mem_range.mp h))
  have hidAt : ∀ i, i < n → (st.agents.getD i default).id = i := fun i hi =>
    idAt_of_wf hwf i hi
  set likesL := c.2.map (fun e => (e.1, e.2.1)) with hlikesL
  set passesL := c.2.map (fun e => (e.1, e.2.2)) with hpassesL
  set PS := pairsFlat likesL with hPSdef
  set PPS := pairsFlat passesL with hPPSdef
  have hPSmem : ∀ p : Nat × Nat, p ∈ PS ↔ (p.1 < n ∧
      (st.agents.getD p.1 default).id ∉ st.eliminated ∧
      p.2 ∈ roundLiked o st1 p.1) := by
    intro p
    rw [hPSdef, hlikesL, hE]
    exact mem_likePairs o st1 n rfl hwf p
  have hPPSmem : ∀ p : Nat × Nat, p ∈ PPS ↔ (p.1 < n ∧
      (st.agents.getD p.1 default).id ∉ st.eliminated ∧
      p.2 ∈ roundPassed o st1 p.1) := by
    intro p
    rw [hPPSdef, hpassesL, hE]
    exact mem_passPairs o st1 n rfl hwf p
  have hOr : ∀ i, i < n → (st.agents.getD i default).id ∉ st.eliminated →
      ∀ b ∈ detailsAt o st1 i,
        b ∈ getAvailableCandidates st (st.agents.getD i default) := by
    intro i hi helim b hb
    have h := hO (st.agents.getD i default) (getD_mem_of_lt hi) helim
    exact h.2.1 b (detailsAt_subset_sample o st1 i hb)
  have havail : ∀ i, i < n → ∀ b,
      b ∈ getAvailableCandidates st (st.agents.getD i default) →
      b < n ∧ b ∉ likedAt st i ∧ b ∉ passedAt st i ∧ b ≠ i := by
    intro i hi b hb
    rw [getAvailableCandidates, Finset.mem_sdiff] at hb
    obtain ⟨hb1, hb2⟩ := hb
    rw [Finset.mem_sdiff] at hb1
    obtain ⟨hbid, hbass⟩ := hb1
    rw [hids, List.mem_toFinset, List.mem_range] at hbid
    rw [getAssessedCandidates, Finset.mem_union] at hbass
    push_neg at hbass
    refine ⟨hbid, hbass.1, hbass.2, ?_⟩
    intro hbi
    apply hb2
    rw [Finset.mem_insert]
    left
    rw [hbi]
    exact (hidAt i hi).symm
  have hPSfacts : ∀ q ∈ PS,
      q.1 ≠ q.2 ∧ st.matrix q.1 q.2 ≠ 1 ∧ st.matrix q.1 q.2 ≠ -1 := by
    intro q hq
    obtain ⟨hq1, hqelim, hqval⟩ := (hPSmem q).mp hq
    have hdet : q.2 ∈ detailsAt o st1 q.1 :=
      List.Sublist.mem hqval (assessList_sublist _ _ _).1
    obtain ⟨hbn, hnl, hnp, hne⟩ :=
      havail q.1 hq1 q.2 (hOr q.1 hq1 hqelim q.2 hdet)
    refine ⟨fun h => hne h.symm, ?_, ?_⟩
    · intro h
      exact hnl ((hmpos q.1 q.2).mp h)
    · intro h
      exact hnp ((hmneg q.1 q.2).mp h)
  have hkeyprop : ∀ i ∈ List.range n, ∀ e, roundEntry o st1 i = some e →
      e.1 = i := by
    intro i hi e he
    rw [roundEntry_eq] at he
    by_cases h : (st1.agents.getD i default).id ∈ st1.eliminated
    · rw [if_pos h] at he
      cases he
    · rw [if_neg h] at he
      rw [← Option.some.inj he]
      exact hidAt i (List.mem_range.mp hi)
  have hvalNodup : ∀ i, (roundLiked o st1 i).Nodup ∧ (roundPassed o st1 i).Nodup := by
    intro i
    constructor
    · exact List.Sublist.nodup (assessList_sublist _ _ _).1
        (detailsAt_nodup o st1 hwf i)
    · exact List.Sublist.nodup (assessList_sublist _ _ _).2
        (detailsAt_nodup o st1 hwf i)
  have hPSnd : PS.Nodup := by
    rw [hPSdef]
    refine pairsFlat_nodup ?_ ?_
    · have hcomp : likesL.map Prod.fst = c.2.map (fun e => e.1) := by
        rw [hlikesL, List.map_map]
        rfl
      rw [hcomp, hE]
      exact List.Sublist.nodup (entryKeys_sublist o st1 (List.range n) hkeyprop)
        (List.nodup_range n)
    · intro e he
      rw [hlikesL] at he
      rcases List.mem_map.mp he with ⟨e0, he0, rfl⟩
      rw [hE] at he0
      rcases List.mem_filterMap.mp he0 with ⟨i, _, hsome⟩
      rw [roundEntry_eq] at hsome
      by_cases h : (st1.agents.getD i default).id ∈ st1.eliminated
      · rw [if_pos h] at hsome
        cases hsome
      · rw [if_neg h] at hsome
        rw [← Option.some.inj hsome]
        exact (hvalNodup i).1
  have hPPSnd : PPS.Nodup := by
    rw [hPPSdef]
    refine pairsFlat_nodup ?_ ?_
    · have hcomp : passesL.map Prod.fst = c.2.map (fun e => e.1) := by
        rw [hpassesL, List.map_map]
        rfl
      rw [hcomp, hE]
      exact List.Sublist.nodup (entryKeys_sublist o st1 (List.range n) hkeyprop)
        (List.nodup_range n)
    · intro e he
      rw [hpassesL] at he
      rcases List.mem_map.mp he with ⟨e0, he0, rfl⟩
      rw [hE] at he0
      rcases List.mem_filterMap.mp he0 with ⟨i, _, hsome⟩
      rw [roundEntry_eq] at hsome
      by_cases h : (st1.agents.getD i default).id ∈ st1.eliminated
      · rw [if_pos h] at hsome
        cases hsome
      · rw [if_neg h] at hsome
        rw [← Option.some.inj hsome]
        exact (hvalNodup i).2
  have hinv0 : LikeInv st.matrix PS PS c.1 := by
    refine ⟨?_, ?_, ?_, ?_, ?_⟩
    · intro a b
      rw [hfm]
      constructor
      · exact Or.inl
      · rintro (h | ⟨h1, h2⟩)
        · exact h
        · exact absurd h1 h2
    · intro a b
      rw [hfm]
    · intro q
      rw [hfr, hfm]
      exact hreg q
    · rw [hfw, hwait]
      exact List.nodup_nil
    · intro q
      rw [hfw, hwait]
      simp only [List.not_mem_nil, false_iff]
      rintro ⟨_, hm2, hm0⟩
      rw [hfm] at hm2
      exact hm0 hm2
  have hlikeEq : processLikes c.1 likesL = processLikePairs c.1 PS := by
    rw [hPSdef]
    exact processLikes_eq_flat likesL c.1
  rw [hlikeEq]
  have hlike := processLikePairs_inv st.matrix PS hPSfacts PS c.1 hPSnd
    (fun q hq => hq) hinv0
  set st2 := processLikePairs c.1 PS with hst2
  obtain ⟨⟨h2pos0, h2neg, h2reg, h2wnd, h2wmem⟩, h2agents, h2mev, h2elim,
    h2aids, h2round⟩ := hlike
  have h2pos : ∀ a b, st2.matrix a b = 1 ↔
      (st.matrix a b = 1 ∨ (a, b) ∈ PS) := by
    intro a b
    rw [h2pos0 a b]
    constructor
    · rintro (h | ⟨h1, _⟩)
      · exact Or.inl h
      · exact Or.inr h1
    · rintro (h | h)
      · exact Or.inl h
      · exact Or.inr ⟨h, List.not_mem_nil _⟩
  have hPPSfacts : ∀ q ∈ PPS,
      st2.matrix q.1 q.2 ≠ 1 ∧ st2.matrix q.1 q.2 ≠ -1 := by
    intro q hq
    obtain ⟨hq1, hqelim, hqval⟩ := (hPPSmem q).mp hq
    have hdet : q.2 ∈ detailsAt o st1 q.1 :=
      List.Sublist.mem hqval (assessList_sublist _ _ _).2
    obtain ⟨hbn, hnl, hnp, hne⟩ :=
      havail q.1 hq1 q.2 (hOr q.1 hq1 hqelim q.2 hdet)
    constructor
    · intro h
      rcases (h2pos q.1 q.2).mp h with h | h
      · exact hnl ((hmpos q.1 q.2).mp h)
      · obtain ⟨_, _, hlv⟩ := (hPSmem (q.1, q.2)).mp h
        exact assessList_disjoint _ _ _ (detailsAt_nodup o st1 hwf q.1) q.2 hlv hqval
    · intro h
      rw [h2neg q.1 q.2] at h
      exact hnp ((hmneg q.1 q.2).mp h)
  have hinv1 : PassInv st2.matrix PPS PPS st2 := by
    refine ⟨?_, fun a b => Iff.rfl⟩
    intro a b
    constructor
    · exact Or.inl
    · rintro (h | ⟨h1, h2⟩)
      · exact h
      · exact absurd h1 h2
  have hpassEq : processPasses st2 passesL = processPassPairs st2 PPS := by
    rw [hPPSdef]
    exact processPasses_eq_flat passesL st2
  rw [hpassEq]
  have hpass := processPassPairs_inv st2.matrix PPS hPPSfacts PPS st2 hPPSnd
    (fun q hq => hq) hinv1
  set st3 := processPassPairs st2 PPS with hst3
  obtain ⟨⟨h3neg0, h3pos⟩, h3agents, h3mev, h3elim, h3aids, h3round, h3wait,
    h3reg⟩ := hpass
  have h3neg : ∀ a b, st3.matrix a b = -1 ↔
      (st.matrix a b = -1 ∨ (a, b) ∈ PPS) := by
    intro a b
    rw [h3neg0 a b, h2neg a b]
    constructor
    · rintro (h | ⟨h1, _⟩)
      · exact Or.inl h
      · exact Or.inr h1
    · rintro (h | h)
      · exact Or.inl h
      · exact Or.inr ⟨h, List.not_mem_nil _⟩
  have h3mut : ∀ q, Mutual st3.matrix q ↔ Mutual st2.matrix q := by
    intro q
    exact and_congr (h3pos q.1 q.2) (h3pos q.2 q.1)
  have hlen3 : st3.agents.length = n := by
    rw [h3agents, h2agents, hflen]
  have hWnd : st3.waiting.Nodup := by
    rw [h3wait]
    exact h2wnd
  have hWmem : ∀ q : Nat × Nat, q ∈ st3.waiting ↔
      (q.1 < q.2 ∧ Mutual st2.matrix q ∧ ¬Mutual st.matrix q) := by
    intro q
    rw [h3wait]
    exact h2wmem q
  have hlikedlt : ∀ a b, st2.matrix a b = 1 → a < n := by
    intro a b h
    rcases (h2pos a b).mp h with h | h
    · by_contra hcon
      have hm : b ∈ likedAt st a := (hmpos a b).mp h
      rw [likedAt_out (by omega)] at hm
      exact absurd hm (Finset.not_mem_empty b)
    · exact ((hPSmem (a, b)).mp h).1
  have hWfacts : ∀ q ∈ st3.waiting, q.1 < q.2 ∧ Mutual st3.matrix q ∧
      q.1 < st3.agents.length ∧ q.2 < st3.agents.length := by
    intro q hq
    obtain ⟨hlt, hm2, _⟩ := (hWmem q).mp hq
    refine ⟨hlt, (h3mut q).mpr hm2, ?_, ?_⟩
    · rw [hlen3]
      exact hlikedlt q.1 q.2 hm2.1
    · rw [hlen3]
      exact hlikedlt q.2 q.1 hm2.2
  have hcwf : c.1.agents.map (·.id) = List.range c.1.agents.length := by
    rw [hfmap, hflen]
    exact hwf
  have hid3 : ∀ j, j < st3.agents.length →
      (st3.agents.getD j default).id = j := by
    intro j hj
    rw [h3agents, h2agents] at hj ⊢
    exact idAt_of_wf hcwf j hj
  have hmev3 : ∀ q : Nat × Nat, st3.matchEvents.count q =
      if q.1 ≠ q.2 ∧ Mutual st3.matrix q ∧ sortPair q.1 q.2 ∉ st3.waiting
      then 1 else 0 := by
    intro q
    have hev : st3.matchEvents = st.matchEvents := by
      rw [h3mev, h2mev, hfme]
    rw [hev, hmev q]
    refine if_congr (and_congr_right fun hqne => ?_) rfl rfl
    constructor
    · intro h
      have hmut2 : Mutual st2.matrix q :=
        ⟨(h2pos q.1 q.2).mpr (Or.inl h.1), (h2pos q.2 q.1).mpr (Or.inl h.2)⟩
      refine ⟨(h3mut q).mpr hmut2, ?_⟩
      intro hin
      obtain ⟨_, _, hnm0⟩ := (hWmem _).mp hin
      apply hnm0
      rw [mutual_sortPair]
      exact h
    · rintro ⟨hm3, hnin⟩
      by_contra hcon
      apply hnin
      rw [hWmem]
      refine ⟨sortPair_lt hqne, ?_, ?_⟩
      · rw [mutual_sortPair]
        exact (h3mut q).mp hm3
      · rw [mutual_sortPair]
        exact hcon
  have hfold := processMatchesFold happy st3.waiting st3 hWnd hWfacts hid3 hmev3
  obtain ⟨hfo1, hfo2, hfo3, hfo4, hfo5, hfo6, hfo7, hfo8, hfo9, hfo10, hfo11⟩ :=
    hfold
  set foldRes := st3.waiting.foldl (processMatchPair happy) st3 with hfoldRes
  have hst4 : processMatches happy st3 = { foldRes with waiting := [] } := rfl
  rw [hst4]
  have hlik5 : ∀ a, likedAt (logAgents { foldRes with waiting := [] }) a =
      (c.1.agents.getD a default).liked := by
    intro a
    rw [(likedAt_logAgents { foldRes with waiting := [] } a).1]
    have h8 := hfo8 a
    rw [likedAt, likedAt] at h8
    show (foldRes.agents.getD a default).liked = _
    rw [h8, h3agents, h2agents]
  have hpas5 : ∀ a, passedAt (logAgents { foldRes with waiting := [] }) a =
      (c.1.agents.getD a default).passed := by
    intro a
    rw [(likedAt_logAgents { foldRes with waiting := [] } a).2]
    have h9 := hfo9 a
    rw [passedAt, passedAt] at h9
    show (foldRes.agents.getD a default).passed = _
    rw [h9, h3agents, h2agents]
  have hlen5 : (logAgents { foldRes with waiting := [] }).agents.length = n := by
    show (foldRes.agents.map _).length = n
    rw [List.length_map, hfo7, hlen3]
  refine ⟨?_, ?_, ?_, ?_, rfl, ?_, ?_⟩
  · show ((logAgents { foldRes with waiting := [] }).agents).map (·.id) = _
    rw [logAgents_map_id]
    have h1 : foldRes.agents.map (·.id) = List.range foldRes.agents.length := by
      refine map_id_eq_range foldRes.agents _ rfl ?_
      intro j hj
      refine hfo10 j ?_
      rw [← hfo7]
      exact hj
    show foldRes.agents.map (·.id) = _
    rw [h1, hlen5]
    rw [hfo7, hlen3]
  · show foldRes.agentIds = _
    rw [hlen5, hfo5, h3aids, h2aids, hfaid, hids]
  · intro a b
    show foldRes.matrix a b = 1 ↔ b ∈ likedAt (logAgents _) a
    rw [hlik5 a, hfo1, h3pos a b, h2pos a b]
    by_cases ha : a < n
    · rw [hproc a ha, roundAgent_liked]
      by_cases helim : (st1.agents.getD a default).id ∈ st1.eliminated
      · rw [if_pos helim]
        constructor
        · rintro (h | h)
          · exact (hmpos a b).mp h
          · obtain ⟨_, h2, _⟩ := (hPSmem (a, b)).mp h
            exact absurd helim h2
        · intro h
          exact Or.inl ((hmpos a b).mpr h)
      · rw [if_neg helim, Finset.mem_union, List.mem_toFinset]
        constructor
        · rintro (h | h)
          · exact Or.inl ((hmpos a b).mp h)
          · exact Or.inr ((hPSmem (a, b)).mp h).2.2
        · rintro (h | h)
          · exact Or.inl ((hmpos a b).mpr h)
          · exact Or.inr ((hPSmem (a, b)).mpr ⟨ha, helim, h⟩)
    · rw [huntouched a ha]
      constructor
      · rintro (h | h)
        · exact (hmpos a b).mp h
        · exact absurd ((hPSmem (a, b)).mp h).1 ha
      · intro h
        exact Or.inl ((hmpos a b).mpr h)
  · intro a b
    show foldRes.matrix a b = -1 ↔ b ∈ passedAt (logAgents _) a
    rw [hpas5 a, hfo1, h3neg a b]
    by_cases ha : a < n
    · rw [hproc a ha, roundAgent_passed]
      by_cases helim : (st1.agents.getD a default).id ∈ st1.eliminated
      · rw [if_pos helim]
        constructor
        · rintro (h | h)
          · exact (hmneg a b).mp h
          · obtain ⟨_, h2, _⟩ := (hPPSmem (a, b)).mp h
            exact absurd helim h2
        · intro h
          exact Or.inl ((hmneg a b).mpr h)
      · rw [if_neg helim, Finset.mem_union, List.mem_toFinset]
        constructor
        · rintro (h | h)
          · exact Or.inl ((hmneg a b).mp h)
          · exact Or.inr ((hPPSmem (a, b)).mp h).2.2
        · rintro (h | h)
          · exact Or.inl ((hmneg a b).mpr h)
          · exact Or.inr ((hPPSmem (a, b)).mpr ⟨ha, helim, h⟩)
    · rw [huntouched a ha]
      constructor
      · rintro (h | h)
        · exact (hmneg a b).mp h
        · exact absurd ((hPPSmem (a, b)).mp h).1 ha
      · intro h
        exact Or.inl ((hmneg a b).mpr h)
  · intro q
    show foldRes.registerEvents.count q =
      if q.1 < q.2 ∧ Mutual foldRes.matrix q then 1 else 0
    rw [hfo3, h3reg, hfo1, h2reg q]
    exact if_congr (and_congr_right fun _ => (h3mut q).symm) rfl rfl
  · intro q
    show foldRes.matchEvents.count q =
      if q.1 ≠ q.2 ∧ Mutual foldRes.matrix q then 1 else 0
    rw [hfo1]
    exact hfo11 q

/-- Engine states reachable from a starting state: rounds are driven by
oracles satisfying the random.sample contract, eliminations by thresholds on
which np.percentile did not raise. -/
inductive Reachable (happy : Nat → Nat → ℚ) : MatcherState → MatcherState → Prop where
  | refl (st : MatcherState) : Reachable happy st st
  | round {st st' : MatcherState} (o : RoundOracle) :
      Reachable happy st st' → ValidOracle st' o →
      Reachable happy st (runNewRound happy o st')
  | elim {st st' st'' : MatcherState} (t : ℚ) :
      Reachable happy st st' → eliminateBottom st' t = some st'' →
      Reachable happy st st''

theorem inv_reachable {happy : Nat → Nat → ℚ} {st st' : MatcherState}
    (hr : Reachable happy st st') (h : Inv st) : Inv st' := by
  induction hr with
  | refl => exact h
  | round o hr hO ih => exact inv_runNewRound happy o _ ih hO
  | elim t hr he ih => exact inv_eliminateBottom he ih

theorem eliminateBottom_agents {st st2 : MatcherState} {t : ℚ}
    (h : eliminateBottom st t = some st2) : st2.agents = st.agents := by
  rw [eliminateBottom] at h
  rcases hp : percentile ((st.agents.filter
      (fun a => a.id ∉ st.eliminated)).map (·.happiness)) t with _ | v
  · rw [hp] at h
    cases h
  · rw [hp] at h
    obtain rfl : _ = st2 := Option.some.inj h
    rfl

theorem foldMatch_assessed (happy : Nat → Nat → ℚ) :
    ∀ (ws : List (Nat × Nat)) (st : MatcherState) (i : Nat),
      likedAt (ws.foldl (processMatchPair happy) st) i = likedAt st i ∧
      passedAt (ws.foldl (processMatchPair happy) st) i = passedAt st i
  | [], st, i => ⟨rfl, rfl⟩
  | w :: ws, st, i => by
    rw [List.foldl_cons]
    constructor
    · rw [(foldMatch_assessed happy ws _ i).1,
        (processMatchPair_preserves happy st w i).1]
    · rw [(foldMatch_assessed happy ws _ i).2,
        (processMatchPair_preserves happy st w i).2.1]

theorem processLikePairs_agents :
    ∀ (ps : List (Nat × Nat)) (st : MatcherState),
      (processLikePairs st ps).agents = st.agents
  | [], st => rfl
  | p :: ps, st => by
    rw [processLikePairs, List.foldl_cons]
    show (processLikePairs (processLike st p.1 p.2) ps).agents = _
    rw [processLikePairs_agents ps _, (processLike_frame st p.1 p.2).1]

theorem processPassPairs_agents :
    ∀ (ps : List (Nat × Nat)) (st : MatcherState),
      (processPassPairs st ps).agents = st.agents
  | [], st => rfl
  | p :: ps, st => by
    rw [processPassPairs, List.foldl_cons]
    show (processPassPairs (processPass st p.1 p.2) ps).agents = _
    rw [processPassPairs_agents ps _, (processPass_frame st p.1 p.2).1]

theorem runNewRound_assessed_mono (happy : Nat → Nat → ℚ) (o : RoundOracle)
    (st : MatcherState) (i : Nat) :
    likedAt st i ⊆ likedAt (runNewRound happy o st) i ∧
    passedAt st i ⊆ passedAt (runNewRound happy o st) i := by
  rw [runNewRound_eq]
  set st1 : MatcherState := { st with round := st.round + 1 } with hst1
  set c := collectGo o st1 (List.range st.agents.length) with hc
  set L := c.2.map (fun e => (e.1, e.2.1)) with hL
  set P := c.2.map (fun e => (e.1, e.2.2)) with hP
  have hAg : (processPasses (processLikes c.1 L) P).agents = c.1.agents := by
    rw [processPasses_eq_flat, processPassPairs_agents, processLikes_eq_flat,
      processLikePairs_agents]
  have hstep1 : likedAt (logAgents (processMatches happy
        (processPasses (processLikes c.1 L) P))) i = likedAt c.1 i ∧
      passedAt (logAgents (processMatches happy
        (processPasses (processLikes c.1 L) P))) i = passedAt c.1 i := by
    constructor
    · rw [(likedAt_logAgents _ i).1]
      show likedAt ((processPasses (processLikes c.1 L) P).waiting.foldl
        (processMatchPair happy) (processPasses (processLikes c.1 L) P)) i = _
      rw [(foldMatch_assessed happy _ _ i).1]
      rw [likedAt, likedAt, hAg]
    · rw [(likedAt_logAgents _ i).2]
      show passedAt ((processPasses (processLikes c.1 L) P).waiting.foldl
        (processMatchPair happy) (processPasses (processLikes c.1 L) P)) i = _
      rw [(foldMatch_assessed happy _ _ i).2]
      rw [passedAt, passedAt, hAg]
  have hcol : likedAt st1 i ⊆ likedAt c.1 i ∧ passedAt st1 i ⊆ passedAt c.1 i := by
    by_cases hj : i < st.agents.length
    · have hp := collectGo_processed o (List.range st.agents.length) st1 st1
        (fun _ _ => rfl) rfl rfl rfl (fun k hk => List.mem_range.mp hk)
        (List.nodup_range _) i (List.mem_range.mpr hj)
      have hl : likedAt c.1 i = (roundAgent o st1 i).liked := by
        rw [likedAt, hp]
      have hq : passedAt c.1 i = (roundAgent o st1 i).passed := by
        rw [passedAt, hp]
      constructor
      · rw [hl, roundAgent_liked]
        split
        · exact Finset.Subset.refl _
        · exact Finset.subset_union_left
      · rw [hq, roundAgent_passed]
        split
        · exact Finset.Subset.refl _
        · exact Finset.subset_union_left
    · have hu := collectGo_untouched o (List.range st.agents.length) st1 i
        (fun h => hj (List.mem_range.mp h))
      constructor
      · rw [likedAt, likedAt, hu]
      · rw [passedAt, passedAt, hu]
  exact ⟨hstep1.1 ▸ hcol.1, hstep1.2 ▸ hcol.2⟩

theorem reachable_assessed_mono {happy : Nat → Nat → ℚ} {st st' : MatcherState}
    (hr : Reachable happy st st') (i : Nat) :
    likedAt st i ⊆ likedAt st' i ∧ passedAt st i ⊆ passedAt st' i := by
  induction hr with
  | refl => exact ⟨Finset.Subset.refl _, Finset.Subset.refl _⟩
  | round o hr hO ih =>
    exact ⟨ih.1.trans (runNewRound_assessed_mono happy o _ i).1,
           ih.2.trans (runNewRound_assessed_mono happy o _ i).2⟩
  | elim t hr he ih =>
    have ha := eliminateBottom_agents he
    constructor
    · refine ih.1.trans ?_
      intro x hx
      rw [likedAt, ha]
      exact hx
    · refine ih.2.trans ?_
      intro x hx
      rw [passedAt, ha]
      exact hx

/-- Two sequential fresh agents and a one-round oracle recommending each to
the other, with like-everything strategies: the smallest mutual-like run. -/
def c3Agents : List AgentState := [mkAgent 0 2 0, mkAgent 1 2 0]

def c3Oracle : RoundOracle :=
  { sample := fun i => if i = 0 then [1] else [0]
    dec := fun _ _ => true }

def c3St : MatcherState :=
  runNewRound (fun _ _ => 0) c3Oracle (initRandomMatcher c3Agents 1)

/-- C3: in every engine state reachable from a fresh zero-based sequential
population, whenever two distinct agents have liked each other — in the same
round or in different ones — the unordered pair was registered as a pending
match exactly once over the whole run, and get_matched fired exactly once on
each of the two agents with the other as partner. -/
theorem c3_mutual_match_once (happy : Nat → Nat → ℚ)
    (agents : List AgentState) (limit : Nat) (st : MatcherState)
    (hids : agents.map (·.id) = List.range agents.length)
    (hfresh : ∀ a ∈ agents, a.liked = ∅ ∧ a.passed = ∅)
    (hr : Reachable happy (initRandomMatcher agents limit) st)
    (a b : Nat) (hab : a ≠ b)
    (hlab : b ∈ likedAt st a) (hlba : a ∈ likedAt st b) :
    st.registerEvents.count (sortPair a b) = 1 ∧
    st.matchEvents.count (a, b) = 1 ∧
    st.matchEvents.count (b, a) = 1 := by
  have hInv := inv_reachable hr (inv_init agents limit hids hfresh)
  have h1 : st.matrix a b = 1 := (hInv.mpos a b).mpr hlab
  have h2 : st.matrix b a = 1 := (hInv.mpos b a).mpr hlba
  refine ⟨?_, ?_, ?_⟩
  · have hp : (sortPair a b).1 < (sortPair a b).2 ∧
        Mutual st.matrix (sortPair a b) :=
      ⟨sortPair_lt hab, (mutual_sortPair st.matrix a b).mpr ⟨h1, h2⟩⟩
    rw [hInv.reg (sortPair a b), if_pos hp]
  · have hp : (a, b).1 ≠ (a, b).2 ∧ Mutual st.matrix (a, b) := ⟨hab, h1, h2⟩
    rw [hInv.mev (a, b), if_pos hp]
  · have hp : (b, a).1 ≠ (b, a).2 ∧ Mutual st.matrix (b, a) :=
      ⟨fun hc => hab hc.symm, h2, h1⟩
    rw [hInv.mev (b, a), if_pos hp]

theorem c3_mutual_match_once_witness :
    (c3Agents.map (·.id) = List.range c3Agents.length) ∧
    (∀ a ∈ c3Agents, a.liked = ∅ ∧ a.passed = ∅) ∧
    ValidOracle (initRandomMatcher c3Agents 1) c3Oracle ∧
    (0 : Nat) ≠ 1 ∧ 1 ∈ likedAt c3St 0 ∧ 0 ∈ likedAt c3St 1 ∧
    (c3St.registerEvents.count (sortPair 0 1) = 1 ∧
     c3St.matchEvents.count (0, 1) = 1 ∧
     c3St.matchEvents.count (1, 0) = 1) := by
  refine ⟨by decide, by decide, by decide, by decide, by decide, by decide, ?_⟩
  exact c3_mutual_match_once (fun _ _ => 0) c3Agents 1 c3St (by decide)
    (by decide) (Reachable.round c3Oracle (Reachable.refl _) (by decide))
    0 1 (by decide) (by decide) (by decide)

/-- An agent that has already assessed (liked) candidate 1, the no-double-
exposure scenario. -/
def c4Agent : AgentState :=
  { id := 0, likeAllowance := 2, remainingLikes := 1, liked := {1},
    passed := ∅, matched := ∅, matchCount := 0, happiness := 0, history := [] }

def c4St : MatcherState := initRandomMatcher [c4Agent, mkAgent 1 2 0] 1

def c4Oracle : RoundOracle :=
  { sample := fun i => if i = 0 then [] else [0]
    dec := fun _ _ => true }

/-- C4: once a candidate is in an agent's liked or passed set, it stays there
in every later reachable state, is excluded from get_available_candidates of
that agent, and hence is never part of the agent's recommended list produced
by random.sample in any later round. -/
theorem c4_no_double_exposure (happy : Nat → Nat → ℚ)
    (st st' : MatcherState) (hr : Reachable happy st st')
    (i cand : Nat)
    (hseen : cand ∈ likedAt st i ∪ passedAt st i) :
    cand ∈ likedAt st' i ∪ passedAt st' i ∧
    cand ∉ getAvailableCandidates st' (st'.agents.getD i default) ∧
    (∀ o : RoundOracle, ValidOracle st' o → i < st'.agents.length →
      (st'.agents.getD i default).id ∉ st'.eliminated →
      cand ∉ o.sample (st'.agents.getD i default).id) := by
  have hmono := reachable_assessed_mono hr i
  have hseen' : cand ∈ likedAt st' i ∪ passedAt st' i := by
    rcases Finset.mem_union.mp hseen with h | h
    · exact Finset.mem_union_left _ (hmono.1 h)
    · exact Finset.mem_union_right _ (hmono.2 h)
  refine ⟨hseen', ?_, ?_⟩
  · intro hc
    rw [getAvailableCandidates, Finset.mem_sdiff, Finset.mem_sdiff] at hc
    exact hc.1.2 hseen'
  · intro o hO hlen helim hc
    have h := hO (st'.agents.getD i default) (getD_mem_of_lt hlen) helim
    have hav := h.2.1 cand hc
    rw [getAvailableCandidates, Finset.mem_sdiff, Finset.mem_sdiff] at hav
    exact hav.1.2 hseen'

theorem c4_no_double_exposure_witness :
    ((1 : Nat) ∈ likedAt c4St 0 ∪ passedAt c4St 0) ∧
    ValidOracle c4St c4Oracle ∧ (0 : Nat) < c4St.agents.length ∧
    (c4St.agents.getD 0 default).id ∉ c4St.eliminated ∧
    ((1 : Nat) ∈ likedAt c4St 0 ∪ passedAt c4St 0 ∧
     (1 : Nat) ∉ getAvailableCandidates c4St (c4St.agents.getD 0 default) ∧
     (1 : Nat) ∉ c4Oracle.sample (c4St.agents.getD 0 default).id) := by
  have h := c4_no_double_exposure (fun _ _ => 0) c4St c4St (Reachable.refl c4St)
    0 1 (by decide)
  exact ⟨by decide, by decide, by decide, by decide, h.1, h.2.1,
    h.2.2 c4Oracle (by decide) (by decide) (by decide)⟩

end DatingSim
